import Mathlib

/-!
Verification of the TraDex market-reconciliation layer.

This file shallowly embeds the reconciliation core of the repository:

* `types/market.ts` — `normalizeSymbol` and the name→ticker table;
* `lib/token/merge.ts` — `mergeHistories`;
* `lib/token/mock.ts` — `genMock`;
* `hooks/useUnifiedPrices.ts` — the per-symbol median aggregation
  (`aggregate` below packages the pure merge performed by the hook);
* `lib/history.ts` — the `getCandles` Binance→CoinGecko fallback facade.

Numbers are embedded as `Rat` (the source arithmetic stays well within the
range where IEEE doubles behave like exact arithmetic for the properties
proved here), machine-precision artefacts excepted; JS strings are embedded
as Lean `String`/`List Char` with case mapping restricted to the code points
this development exercises (ASCII and U+017F).
-/

namespace TraDex

/-! ## JS string primitives -/

/-- JS `String.prototype.toLowerCase`, per-code-point (Unicode simple case
mapping restricted to ASCII; the only non-ASCII code point used in this
development, U+017F, has no lowercase mapping and is left unchanged). -/
def jsToLowerChar (c : Char) : Char :=
  if 65 ≤ c.toNat ∧ c.toNat ≤ 90 then Char.ofNat (c.toNat + 32) else c

/-- JS `String.prototype.toUpperCase`, per-code-point (Unicode simple case
mapping restricted to ASCII plus U+017F LATIN SMALL LETTER LONG S, whose
uppercase is `S`). -/
def jsToUpperChar (c : Char) : Char :=
  if 97 ≤ c.toNat ∧ c.toNat ≤ 122 then Char.ofNat (c.toNat - 32)
  else if c.toNat = 383 then 'S' else c

/-- Whitespace recognised by JS `String.prototype.trim`, restricted to the
ASCII range: space, tab, LF, VT, FF, CR. -/
def isJsSpace (c : Char) : Bool :=
  c.toNat = 32 || c.toNat = 9 || c.toNat = 10 || c.toNat = 11 || c.toNat = 12 || c.toNat = 13

/-- JS `String.prototype.trim` on the underlying character list. -/
def jsTrim (l : List Char) : List Char :=
  ((l.dropWhile isJsSpace).reverse.dropWhile isJsSpace).reverse

/-! ## `types/market.ts` -/

/-- One character of the regex class `[a-f0-9]` under the `i` flag. -/
def isHexDigitCI (c : Char) : Bool :=
  (48 ≤ c.toNat && c.toNat ≤ 57) || (97 ≤ c.toNat && c.toNat ≤ 102)
    || (65 ≤ c.toNat && c.toNat ≤ 70)

/-- One character of the regex class `[a-z]` under the `i` flag. -/
def isAsciiLetterCI (c : Char) : Bool :=
  (97 ≤ c.toNat && c.toNat ≤ 122) || (65 ≤ c.toNat && c.toNat ≤ 90)

/-- The regex `/^0x[a-f0-9]\x7b40\x7d$/i` of `normalizeSymbol`. -/
def isAddrShaped : List Char → Bool
  | c0 :: x :: rest =>
    c0 = '0' && (x = 'x' || x = 'X') && rest.length == 40 && rest.all isHexDigitCI
  | _ => false

/-- The regex `/^[a-z]\x7b2,8\x7d$/i` of `normalizeSymbol` ("looks like a
ticker"). -/
def isTickerShaped (l : List Char) : Bool :=
  decide (2 ≤ l.length) && decide (l.length ≤ 8) && l.all isAsciiLetterCI

/-- The `MAP` table of `types/market.ts` (common names → Binance tickers),
embedded as a finite association list (own properties of the object
literal). -/
def MAP : List (String × String) :=
  [("ethereum", "ETH"), ("ether", "ETH"), ("bitcoin", "BTC"), ("solana", "SOL"),
   ("polygon", "MATIC"), ("bnb", "BNB"), ("ripple", "XRP"), ("cardano", "ADA"),
   ("dogecoin", "DOGE"), ("litecoin", "LTC"), ("chainlink", "LINK"),
   ("uniswap", "UNI"), ("aave", "AAVE"), ("pancakeswap", "CAKE"),
   ("sushi", "SUSHI")]

/-- The property keys of `Object.prototype`, which the property read
`MAP[s]` reaches through the prototype chain when `s` is not an own key of
the object literal `MAP`. -/
def objectProtoKeys : List String :=
  ["constructor", "hasOwnProperty", "isPrototypeOf", "propertyIsEnumerable",
   "toLocaleString", "toString", "valueOf", "__defineGetter__", "__defineSetter__",
   "__lookupGetter__", "__lookupSetter__", "__proto__"]

/-- The JS property read `MAP[s]` on the object literal `MAP`.  An own entry
yields its string value (`some (some v)`); failing that, the read walks the
prototype chain, so a key of `Object.prototype` yields a non-nullish
non-string object (`some none`); any other key reads as `undefined`
(`none`). -/
def mapGet (s : String) : Option (Option String) :=
  match MAP.lookup s with
  | some v => some (some v)
  | none => if s ∈ objectProtoKeys then some none else none

/-- JS truthiness of the value read by `mapGet`: `undefined` is falsy, an
inherited `Object.prototype` member (a function or object) is truthy, and a
string is truthy exactly when it is nonempty. -/
def jsTruthyGet : Option (Option String) → Bool
  | none => false
  | some none => true
  | some (some v) => !(v == "")

/-- `normalizeSymbol` from `types/market.ts`: empty → empty; trim and
lowercase into `s`; a 40-hex-digit `0x` address is returned (in that
lowercased form); a 2–8-letter token with `!MAP[s]` is uppercased; otherwise
`(MAP[s] ?? s).toUpperCase()` — when the property read `MAP[s]` falls
through to an `Object.prototype` member (keys `"constructor"` and
`"__proto__"` are reachable from lowercased input), the read is non-nullish
but not a string, and `.toUpperCase()` throws a `TypeError`, modelled as
`Except.error ()`. -/
def normalizeSymbol (input : String) : Except Unit String :=
  if input = "" then Except.ok ""
  else
    let s := (jsTrim input.data).map jsToLowerChar
    if isAddrShaped s then Except.ok (String.mk s)
    else if isTickerShaped s && !jsTruthyGet (mapGet (String.mk s)) then
      Except.ok (String.mk (s.map jsToUpperChar))
    else
      match mapGet (String.mk s) with
      | some (some v) => Except.ok (String.mk (v.data.map jsToUpperChar))
      | some none => Except.error ()
      | none => Except.ok (String.mk (s.map jsToUpperChar))

instance exceptDecEq : DecidableEq (Except Unit String)
  | Except.ok x, Except.ok y =>
    if h : x = y then isTrue (h ▸ rfl) else isFalse (fun hc => h (Except.ok.inj hc))
  | Except.ok _, Except.error _ => isFalse (fun hc => Except.noConfusion hc)
  | Except.error _, Except.ok _ => isFalse (fun hc => Except.noConfusion hc)
  | Except.error x, Except.error y => isTrue (by cases x; cases y; rfl)

/-! ## `lib/token/merge.ts` -/

/-- An OHLC candle as used by `merge.ts` and `mock.ts` (`time` in epoch
seconds; the optional `volume` field is never read nor emitted by the
merge/mock code paths and is omitted). -/
structure OHLC where
  time : Int
  «open» : Rat
  high : Rat
  low : Rat
  close : Rat
deriving DecidableEq

/-- Comparison key of the candle sorts in `merge.ts`
(`(a, b) => a.time - b.time`). -/
def timeLE (a b : OHLC) : Prop := a.time ≤ b.time

instance : DecidableRel timeLE := fun a b => inferInstanceAs (Decidable (a.time ≤ b.time))

instance : IsTotal OHLC timeLE := ⟨fun a b => Int.le_total a.time b.time⟩

instance : IsTrans OHLC timeLE := ⟨fun _ _ _ h1 h2 => le_trans h1 h2⟩

/-- One step of building the `buckets` map of `mergeHistories`: a JS `Map`
keyed by timestamp, preserving key insertion order, each key holding the
candles pushed for it in traversal order. -/
def insertBucket (c : OHLC) : List (Int × List OHLC) → List (Int × List OHLC)
  | [] => [(c.time, [c])]
  | (t, arr) :: rest =>
    if t = c.time then (t, arr ++ [c]) :: rest else (t, arr) :: insertBucket c rest

/-- The `buckets` map of `mergeHistories` after both loops over the input
histories. -/
def bucketsOf (histories : List (List OHLC)) : List (Int × List OHLC) :=
  histories.flatten.foldl (fun m c => insertBucket c m) []

/-- Binary maximum on `Rat`, written out so that the kernel can evaluate it
on concrete inputs. -/
def rmax (a b : Rat) : Rat := if a ≤ b then b else a

/-- Binary minimum on `Rat`, kernel-evaluable. -/
def rmin (a b : Rat) : Rat := if b ≤ a then b else a

/-- JS `Math.abs`, kernel-evaluable. -/
def rabs (x : Rat) : Rat := if x < 0 then -x else x

/-- JS `Math.max(...xs)` for the nonempty argument lists produced by
`mergeHistories` (buckets always hold at least one candle). -/
def listMax : List Rat → Rat
  | [] => 0
  | a :: l => l.foldl rmax a

/-- JS `Math.min(...xs)`, same proviso as `listMax`. -/
def listMin : List Rat → Rat
  | [] => 0
  | a :: l => l.foldl rmin a

/-- The body of the per-bucket loop of `mergeHistories`: the bucket is sorted
by `time` (stable; a no-op since all members share the timestamp), `open` is
the first member's open, `high`/`low` are the extrema, and the emitted
`close` is the member of the ascending-sorted close list at index
`⌊n / 2⌋`.  (The intermediate `close` variable of the source is dead code and
not modelled; the `[]` case is unreachable.) -/
def mergeBucket (ts : Int) (arr : List OHLC) : OHLC :=
  let sorted := arr.insertionSort timeLE
  let closes := (sorted.map OHLC.close).insertionSort (· ≤ ·)
  { time := ts
    «open» := (sorted.headD ⟨0, 0, 0, 0, 0⟩).«open»
    high := listMax (sorted.map OHLC.high)
    low := listMin (sorted.map OHLC.low)
    close := closes.getD (closes.length / 2) 0 }

/-- `mergeHistories` from `lib/token/merge.ts`. -/
def mergeHistories (histories : List (List OHLC)) : List OHLC :=
  ((bucketsOf histories).map fun p => mergeBucket p.1 p.2).insertionSort timeLE

/-! ## `lib/token/mock.ts` -/

/-- One step of the 32-bit linear congruential generator of `genMock`:
`seed = (seed * 1664525 + 1013904223) % 2 ** 32`. -/
def lcgNext (seed : Nat) : Nat := (seed * 1664525 + 1013904223) % 2 ^ 32

/-- The value `rand()` returns once the seed has advanced: `seed / 2 ** 32`.
(Rational constants throughout this embedding are written with `mkRat`
rather than `/`, because `Rat.inv` is irreducible and would block kernel
evaluation; the values are identical.) -/
def lcgRat (seed : Nat) : Rat := mkRat seed (2 ^ 32)

/-- Floor of a rational, written with `Int.fdiv` (floor division; `Rat`
keeps `den` positive) so that the kernel can evaluate it. -/
def ratFloor (q : Rat) : Int := Int.fdiv q.num q.den

/-- JS `+x.toFixed(4)`: round to 4 decimal places, ties picking the larger
candidate, i.e. `⌊x·10000 + 1/2⌋ / 10000`. -/
def round4 (x : Rat) : Rat := mkRat (ratFloor (x * 10000 + mkRat 1 2)) 10000

/-- The interval→seconds table of `genMock` (default 3600). -/
def stepOf (interval : String) : Nat :=
  if interval = "1m" then 60
  else if interval = "5m" then 300
  else if interval = "15m" then 900
  else if interval = "4h" then 14400
  else if interval = "1d" then 86400
  else 3600

/-- The LCG seed of `genMock`: 100 plus the character-code sum of the
symbol. -/
def seedInit (symbol : String) : Nat :=
  symbol.data.foldl (fun a c => a + c.toNat) 100

/-- The candle loop of `genMock` (`for (let i = n; i >= 1; i--)`), counting
`i` down; `seed` and `price` thread through the iterations. -/
def genLoop (now : Int) (step : Nat) : Nat → Nat → Rat → List OHLC
  | 0, _, _ => []
  | i + 1, seed, price =>
    let s1 := lcgNext seed
    let drift := (lcgRat s1 - mkRat 1 2) * mkRat 6 10
    let s2 := lcgNext s1
    let vol := mkRat 8 10 + lcgRat s2 * mkRat 6 10
    let o := price
    let h := o + rabs drift * vol
    let l := o - rabs drift * vol
    let c := o + drift
    { time := now - ((i + 1) * step : Nat), «open» := round4 o, high := round4 h,
      low := round4 l, close := round4 c } :: genLoop now step i s2 (rmax (mkRat 1 10000) c)

/-- `genMock` from `lib/token/mock.ts`.  The source captures the clock once
(`now = Math.floor(Date.now() / 1000)`); here that reading is the explicit
parameter `now`.  `days` is a natural number (the call sites pass
integers). -/
def genMock (symbol : String) (days : Nat) (interval : String) (now : Int) : List OHLC :=
  let step := stepOf interval
  let n := min 1000 (days * 86400 / step)
  let s1 := lcgNext (seedInit symbol)
  let price := 100 + (lcgRat s1 - mkRat 1 2) * 5
  genLoop now step n s1 price

/-! ## `hooks/useUnifiedPrices.ts` — the pure aggregation -/

/-- A per-protocol token price (`type TokenPrice` of the hook). -/
structure TokenPrice where
  symbol : String
  priceUSD : Rat
deriving DecidableEq

/-- A DEX pool entry (`type PoolInfo` of the hook). -/
structure PoolInfo where
  pair : String
  tick : Int
deriving DecidableEq

/-- A per-protocol snapshot (`type Snapshot` of the hook; the `blockNumber`,
`secondsAgo` and `error` fields play no part in the aggregation and are
omitted).  `none` fields model absent (`undefined`) JS fields. -/
structure Snapshot where
  tokens : Option (List TokenPrice) := none
  pools : Option (List PoolInfo) := none
deriving DecidableEq

/-- The four DEX protocols the hook queries. -/
inductive Proto
  | uni
  | sushi
  | quick
  | cake
deriving DecidableEq

/-- The accumulator entry `Acc` of the hook's `bySymbol` record. -/
structure Acc where
  symbol : String
  vals : List Rat
  uni : Option Rat := none
  sushi : Option Rat := none
  quick : Option Rat := none
  cake : Option Rat := none
deriving DecidableEq

/-- A `MarketRow` as built by the hook (the `byProtocol` record is flattened
into four fields). -/
structure MarketRow where
  symbol : String
  price : Option Rat
  uni : Option Rat
  sushi : Option Rat
  quick : Option Rat
  cake : Option Rat
deriving DecidableEq

/-- The symbol normalisation in the hook's `add`:
`(t.symbol || '').toUpperCase().trim()`. -/
def normSymJS (s : String) : String :=
  String.mk (jsTrim (s.data.map jsToUpperChar))

/-- Record a protocol's price on an accumulator entry
(`bySymbol[sym].byProtocol[proto] = t.priceUSD`). -/
def setProto (p : Proto) (px : Rat) (a : Acc) : Acc :=
  match p with
  | .uni => { a with uni := some px }
  | .sushi => { a with sushi := some px }
  | .quick => { a with quick := some px }
  | .cake => { a with cake := some px }

/-- Push one normalised, nonempty symbol's price into `bySymbol`: the JS
record keyed by symbol, here an insertion-ordered association list (symbols
are taken non-numeric, so JS object key order is insertion order; only row
order, which no claim concerns, could differ). -/
def insertAcc (p : Proto) (sym : String) (px : Rat) : List Acc → List Acc
  | [] => [setProto p px { symbol := sym, vals := [px] }]
  | a :: rest =>
    if a.symbol = sym then setProto p px { a with vals := a.vals ++ [px] } :: rest
    else a :: insertAcc p sym px rest

/-- The body of the token loop of the hook's `add`. -/
def addToken (p : Proto) (accs : List Acc) (t : TokenPrice) : List Acc :=
  let sym := normSymJS t.symbol
  if sym = "" then accs else insertAcc p sym t.priceUSD accs

/-- The hook's `add(proto, snap)`: a missing snapshot or missing `tokens`
field contributes nothing. -/
def addSnap (p : Proto) (snap : Option Snapshot) (accs : List Acc) : List Acc :=
  match snap with
  | none => accs
  | some s =>
    match s.tokens with
    | none => accs
    | some ts => ts.foldl (addToken p) accs

/-- The allow-list of legitimately high-value symbols in the hook. -/
def allowList : List String :=
  ["BTC", "WBTC", "TBTC", "ETH", "WETH", "PAXG", "RETH", "STETH", "WSTETH"]

/-- The hook's `tooLarge`: median above 1,000,000 USD and not
allow-listed. -/
def tooLarge (sym : String) (px : Rat) : Bool :=
  px > 1000000 && !(allowList.contains sym)

/-- The row built from one accumulator entry: ascending numeric sort of the
accumulated values, median at index `⌊n / 2⌋`, suppressed to `none` when
`tooLarge`. -/
def rowOf (v : Acc) : MarketRow :=
  let sorted := v.vals.insertionSort (· ≤ ·)
  let median := sorted[sorted.length / 2]?
  let finalPrice :=
    match median with
    | some m => if tooLarge v.symbol m then none else some m
    | none => none
  { symbol := v.symbol, price := finalPrice, uni := v.uni, sushi := v.sushi,
    quick := v.quick, cake := v.cake }

/-- The four `add` calls of the hook, in source order. -/
def protoSnaps (uni sushi quick cake : Option Snapshot) :
    List (Proto × Option Snapshot) :=
  [(Proto.uni, uni), (Proto.sushi, sushi), (Proto.quick, quick), (Proto.cake, cake)]

/-- `bySymbol` after all four `add` calls. -/
def accsOf (uni sushi quick cake : Option Snapshot) : List Acc :=
  (protoSnaps uni sushi quick cake).foldl (fun accs ps => addSnap ps.1 ps.2 accs) []

/-- The hook's `uni?.pools || []` for one protocol. -/
def poolsOf (snap : Option Snapshot) : List PoolInfo :=
  (snap.bind Snapshot.pools).getD []

/-- The pure aggregation performed by `useUnifiedPrices` on the four fetched
snapshots (`undefined` = disabled or failed): the `rows` and `pairs` of its
result. -/
def aggregate (uni sushi quick cake : Option Snapshot) :
    List MarketRow × List PoolInfo :=
  ((accsOf uni sushi quick cake).map rowOf,
    poolsOf uni ++ poolsOf sushi ++ poolsOf quick ++ poolsOf cake)

/-- The `tokens` a present snapshot contributes. -/
def tokensOf (snap : Option Snapshot) : List TokenPrice :=
  (snap.bind Snapshot.tokens).getD []

/-- The prices a token list contributes to one normalised symbol, in
traversal order. -/
def symVals (sym : String) (ts : List TokenPrice) : List Rat :=
  ts.filterMap fun t => if normSymJS t.symbol = sym then some t.priceUSD else none

/-- All prices accumulated for `sym` across the four snapshots, in
accumulation order (specification-side description of `bySymbol[sym].vals`). -/
def valsFor (uni sushi quick cake : Option Snapshot) (sym : String) : List Rat :=
  symVals sym (tokensOf uni) ++ symVals sym (tokensOf sushi)
    ++ symVals sym (tokensOf quick) ++ symVals sym (tokensOf cake)

/-- The median the hook computes from a value list: element `⌊n / 2⌋` of the
ascending sort. -/
def medianOf (vals : List Rat) : Option Rat :=
  let sorted := vals.insertionSort (· ≤ ·)
  sorted[sorted.length / 2]?

/-! ## `lib/history.ts` — the `getCandles` facade -/

/-- An OHLC candle as produced by the `lib/history.ts` adapters (this one
carries `volume`). -/
structure HOHLC where
  time : Int
  «open» : Rat
  high : Rat
  low : Rat
  close : Rat
  volume : Rat
deriving DecidableEq

/-- The result of `fetchCandles…(…).catch(() => null)`: a rejected promise
(`Except.error`) is downgraded to `null` (`none`); `Except.ok none` is the
adapter's own `null` (non-OK status or malformed body). -/
def adapterList (r : Except Unit (Option (List HOHLC))) : Option (List HOHLC) :=
  match r with
  | .error _ => none
  | .ok v => v

/-- `getCandles` from `lib/history.ts`, over the outcomes of its two adapter
calls: Binance first; if it threw, returned `null`, or returned an empty
list, fall back to CoinGecko (`cg || []`); total — never throws. -/
def getCandles (bin cg : Except Unit (Option (List HOHLC))) : List HOHLC :=
  match adapterList bin with
  | some l => if l = [] then (adapterList cg).getD [] else l
  | none => (adapterList cg).getD []

/-! ## Theorems -/

section GenMockLemmas

theorem genLoop_length (now : Int) (step : Nat) :
    ∀ (i seed : Nat) (price : Rat), (genLoop now step i seed price).length = i := by
  intro i
  induction i with
  | zero => intro seed price; rfl
  | succ i ih => intro seed price; simpa [genLoop] using ih _ _

theorem genLoop_time_map (now : Int) (step : Nat) :
    ∀ (i seed : Nat) (price : Rat),
      (genLoop now step i seed price).map OHLC.time
        = (List.range i).map (fun j : Nat => now - (((i : Int)) - ((j : Int))) * (step : Int)) := by
  intro i
  induction i with
  | zero => intro seed price; rfl
  | succ i ih =>
    intro seed price
    rw [List.range_succ_eq_map, List.map_cons, List.map_map]
    simp only [genLoop, List.map_cons]
    refine List.cons_eq_cons.mpr ⟨?_, ?_⟩
    · push_cast
      ring
    · rw [ih]
      apply List.map_congr_left
      intro j _
      simp only [Function.comp_apply, Nat.succ_eq_add_one]
      push_cast
      ring

theorem genLoop_chain (now : Int) (step : Nat) (i seed : Nat) (price : Rat) :
    List.Chain' (fun a b => b.time = a.time + (step : Int)) (genLoop now step i seed price) := by
  have hmap :
      List.Chain' (fun x y : Int => y = x + (step : Int))
        ((genLoop now step i seed price).map OHLC.time) := by
    rw [genLoop_time_map, List.chain'_map]
    cases i with
    | zero => simp
    | succ n =>
      rw [List.chain'_range_succ]
      intro m hm
      push_cast
      ring
  rw [List.chain'_map] at hmap
  exact hmap

theorem genLoop_prices (now now' : Int) (step : Nat) :
    ∀ (i seed : Nat) (price : Rat),
      (genLoop now step i seed price).map (fun c => (c.«open», c.high, c.low, c.close))
        = (genLoop now' step i seed price).map (fun c => (c.«open», c.high, c.low, c.close)) := by
  intro i
  induction i with
  | zero => intro seed price; rfl
  | succ i ih => intro seed price; simpa [genLoop] using ih _ _

theorem stepOf_pos (interval : String) : 0 < stepOf interval := by
  unfold stepOf
  split_ifs <;> decide

end GenMockLemmas

section MergeLemmas

theorem lookup_cons_ne {ts t : Int} (h : ts ≠ t) (arr : List OHLC)
    (rest : List (Int × List OHLC)) :
    List.lookup ts ((t, arr) :: rest) = List.lookup ts rest := by
  simp [List.lookup, beq_eq_false_iff_ne.2 h]

theorem lookup_insertBucket (c : OHLC) (m : List (Int × List OHLC)) (ts : Int) :
    List.lookup ts (insertBucket c m)
      = if ts = c.time then some (((List.lookup ts m).getD []) ++ [c])
        else List.lookup ts m := by
  induction m with
  | nil =>
    by_cases h : ts = c.time
    · subst h
      simp [insertBucket, List.lookup]
    · simp [insertBucket, List.lookup, beq_eq_false_iff_ne.2 h, h]
  | cons p rest ih =>
    obtain ⟨t, arr⟩ := p
    by_cases h1 : t = c.time
    · simp only [insertBucket, if_pos h1]
      by_cases h2 : ts = t
      · subst h2
        rw [List.lookup_cons_self, if_pos h1, List.lookup_cons_self]
        rfl
      · rw [lookup_cons_ne h2, if_neg (fun hc => h2 (hc.trans h1.symm)), lookup_cons_ne h2]
    · simp only [insertBucket, if_neg h1]
      by_cases h2 : ts = t
      · subst h2
        rw [List.lookup_cons_self, if_neg h1, List.lookup_cons_self]
      · rw [lookup_cons_ne h2, ih, lookup_cons_ne h2]

theorem lookup_foldl_insertBucket (ts : Int) :
    ∀ (cs : List OHLC) (m : List (Int × List OHLC)),
      List.lookup ts (cs.foldl (fun m c => insertBucket c m) m)
        = if cs.filter (fun c => c.time == ts) = [] then List.lookup ts m
          else some (((List.lookup ts m).getD []) ++ cs.filter (fun c => c.time == ts)) := by
  intro cs
  induction cs with
  | nil => intro m; simp
  | cons c cs ih =>
    intro m
    rw [List.foldl_cons, ih (insertBucket c m), lookup_insertBucket]
    by_cases h : c.time = ts
    · rw [if_pos h.symm, List.filter_cons_of_pos (by simpa using h)]
      by_cases h2 : cs.filter (fun c => c.time == ts) = []
      · rw [if_pos h2, if_neg (List.cons_ne_nil _ _), h2]
      · rw [if_neg h2, if_neg (List.cons_ne_nil _ _)]
        simp
    · rw [if_neg (show ¬ts = c.time from fun hc => h hc.symm),
        List.filter_cons_of_neg (by simpa using h)]

theorem bucketsOf_lookup (hs : List (List OHLC)) (ts : Int) :
    List.lookup ts (bucketsOf hs)
      = if hs.flatten.filter (fun c => c.time == ts) = [] then none
        else some (hs.flatten.filter (fun c => c.time == ts)) := by
  unfold bucketsOf
  rw [lookup_foldl_insertBucket]
  simp

theorem mem_of_lookup_eq_some {l : List (Int × List OHLC)} {k : Int} {v : List OHLC}
    (h : List.lookup k l = some v) : (k, v) ∈ l := by
  induction l with
  | nil => simp [List.lookup] at h
  | cons p rest ih =>
    obtain ⟨t, arr⟩ := p
    by_cases hk : k = t
    · subst hk
      rw [List.lookup_cons_self] at h
      cases h
      exact List.mem_cons_self _ _
    · rw [lookup_cons_ne hk] at h
      exact List.mem_cons_of_mem _ (ih h)

theorem mergeBucket_mem_mergeHistories {hs : List (List OHLC)} {ts : Int}
    {arr : List OHLC} (h : List.lookup ts (bucketsOf hs) = some arr) :
    mergeBucket ts arr ∈ mergeHistories hs := by
  unfold mergeHistories
  rw [List.mem_insertionSort]
  exact List.mem_map_of_mem _ (mem_of_lookup_eq_some h)

theorem mergeBucket_const_time (ts : Int) (arr : List OHLC)
    (h : ∀ c ∈ arr, c.time = ts) :
    mergeBucket ts arr =
      { time := ts, «open» := (arr.headD ⟨0, 0, 0, 0, 0⟩).«open»,
        high := listMax (arr.map OHLC.high), low := listMin (arr.map OHLC.low),
        close := ((arr.map OHLC.close).insertionSort (· ≤ ·)).getD
          (((arr.map OHLC.close).insertionSort (· ≤ ·)).length / 2) 0 } := by
  have hsorted : arr.insertionSort timeLE = arr := by
    apply List.Sorted.insertionSort_eq
    exact List.pairwise_of_forall_mem_list
      (fun a ha b hb => by unfold timeLE; rw [h a ha, h b hb])
  simp only [mergeBucket, hsorted]

theorem rmax_cases (a b : Rat) : rmax a b = a ∨ rmax a b = b := by
  unfold rmax
  split <;> simp

theorem le_rmax_left (a b : Rat) : a ≤ rmax a b := by
  unfold rmax
  split
  · assumption
  · exact le_refl a

theorem le_rmax_right (a b : Rat) : b ≤ rmax a b := by
  unfold rmax
  split
  · exact le_refl b
  · exact le_of_not_le (by assumption)

theorem rmin_cases (a b : Rat) : rmin a b = a ∨ rmin a b = b := by
  unfold rmin
  split <;> simp

theorem rmin_le_left (a b : Rat) : rmin a b ≤ a := by
  unfold rmin
  split
  · assumption
  · exact le_refl a

theorem rmin_le_right (a b : Rat) : rmin a b ≤ b := by
  unfold rmin
  split
  · exact le_refl b
  · exact le_of_not_le (by assumption)

theorem foldl_rmax_mem : ∀ (l : List Rat) (a : Rat), l.foldl rmax a = a ∨ l.foldl rmax a ∈ l := by
  intro l
  induction l with
  | nil => intro a; left; rfl
  | cons b l ih =>
    intro a
    rw [List.foldl_cons]
    rcases ih (rmax a b) with h | h
    · rcases rmax_cases a b with h2 | h2 <;> rw [h, h2]
      · left; rfl
      · right; exact List.mem_cons_self _ _
    · right; exact List.mem_cons_of_mem _ h

theorem le_foldl_rmax_init : ∀ (l : List Rat) (a : Rat), a ≤ l.foldl rmax a := by
  intro l
  induction l with
  | nil => intro a; exact le_refl a
  | cons b l ih =>
    intro a
    rw [List.foldl_cons]
    exact le_trans (le_rmax_left a b) (ih (rmax a b))

theorem le_foldl_rmax_mem : ∀ (l : List Rat) (a x : Rat), x ∈ l → x ≤ l.foldl rmax a := by
  intro l
  induction l with
  | nil => intro a x hx; simp at hx
  | cons b l ih =>
    intro a x hx
    rw [List.foldl_cons]
    rcases List.mem_cons.1 hx with rfl | hx
    · exact le_trans (le_rmax_right a x) (le_foldl_rmax_init l (rmax a x))
    · exact ih (rmax a b) x hx

theorem foldl_rmin_mem : ∀ (l : List Rat) (a : Rat), l.foldl rmin a = a ∨ l.foldl rmin a ∈ l := by
  intro l
  induction l with
  | nil => intro a; left; rfl
  | cons b l ih =>
    intro a
    rw [List.foldl_cons]
    rcases ih (rmin a b) with h | h
    · rcases rmin_cases a b with h2 | h2 <;> rw [h, h2]
      · left; rfl
      · right; exact List.mem_cons_self _ _
    · right; exact List.mem_cons_of_mem _ h

theorem foldl_rmin_le_init : ∀ (l : List Rat) (a : Rat), l.foldl rmin a ≤ a := by
  intro l
  induction l with
  | nil => intro a; exact le_refl a
  | cons b l ih =>
    intro a
    rw [List.foldl_cons]
    exact le_trans (ih (rmin a b)) (rmin_le_left a b)

theorem foldl_rmin_le_mem : ∀ (l : List Rat) (a x : Rat), x ∈ l → l.foldl rmin a ≤ x := by
  intro l
  induction l with
  | nil => intro a x hx; simp at hx
  | cons b l ih =>
    intro a x hx
    rw [List.foldl_cons]
    rcases List.mem_cons.1 hx with rfl | hx
    · exact le_trans (foldl_rmin_le_init l (rmin a x)) (rmin_le_right a x)
    · exact ih (rmin a b) x hx

theorem listMax_mem {l : List Rat} (h : l ≠ []) : listMax l ∈ l := by
  cases l with
  | nil => exact absurd rfl h
  | cons a l =>
    simp only [listMax]
    rcases foldl_rmax_mem l a with h2 | h2
    · rw [h2]; exact List.mem_cons_self _ _
    · exact List.mem_cons_of_mem _ h2

theorem le_listMax {l : List Rat} (x : Rat) (hx : x ∈ l) : x ≤ listMax l := by
  cases l with
  | nil => simp at hx
  | cons a l =>
    simp only [listMax]
    rcases List.mem_cons.1 hx with rfl | hx
    · exact le_foldl_rmax_init l x
    · exact le_foldl_rmax_mem l a x hx

theorem listMin_mem {l : List Rat} (h : l ≠ []) : listMin l ∈ l := by
  cases l with
  | nil => exact absurd rfl h
  | cons a l =>
    simp only [listMin]
    rcases foldl_rmin_mem l a with h2 | h2
    · rw [h2]; exact List.mem_cons_self _ _
    · exact List.mem_cons_of_mem _ h2

theorem listMin_le {l : List Rat} (x : Rat) (hx : x ∈ l) : listMin l ≤ x := by
  cases l with
  | nil => simp at hx
  | cons a l =>
    simp only [listMin]
    rcases List.mem_cons.1 hx with rfl | hx
    · exact foldl_rmin_le_init l x
    · exact foldl_rmin_le_mem l a x hx

end MergeLemmas

/-- C1 (amended): for every bucket of candles sharing one timestamp, the
emitted candle has `high` = the maximum high across the bucket, `low` = the
minimum low, and `close` = the element at index `⌊n/2⌋` of the ascending
sort of the bucket's closes — the *upper*-middle element when the bucket has
even cardinality (not the lower-middle); in particular a bucket with closes
11 and 10.5 yields `close = 11`. -/
theorem mergeHistories_bucket_stats (hs : List (List OHLC)) (ts : Int)
    (hne : hs.flatten.filter (fun c => c.time == ts) ≠ []) :
    let bucket := hs.flatten.filter (fun c => c.time == ts)
    let closes := (bucket.map OHLC.close).insertionSort (· ≤ ·)
    ∃ c ∈ mergeHistories hs,
      c.time = ts
      ∧ c.high = listMax (bucket.map OHLC.high)
      ∧ c.high ∈ bucket.map OHLC.high
      ∧ (∀ x ∈ bucket.map OHLC.high, x ≤ c.high)
      ∧ c.low = listMin (bucket.map OHLC.low)
      ∧ c.low ∈ bucket.map OHLC.low
      ∧ (∀ x ∈ bucket.map OHLC.low, c.low ≤ x)
      ∧ c.close = closes.getD (bucket.length / 2) 0
      ∧ closes.Perm (bucket.map OHLC.close)
      ∧ closes.Sorted (· ≤ ·) := by
  intro bucket closes
  have hlk := bucketsOf_lookup hs ts
  rw [if_neg hne] at hlk
  have hmem := mergeBucket_mem_mergeHistories hlk
  have htimes : ∀ c ∈ bucket, c.time = ts := by
    intro c hc
    have := List.of_mem_filter hc
    exact beq_iff_eq.1 this
  rw [mergeBucket_const_time ts bucket htimes] at hmem
  have hlen : closes.length = bucket.length := by
    calc closes.length = (bucket.map OHLC.close).length :=
          (List.perm_insertionSort _ _).length_eq
      _ = bucket.length := List.length_map _ _
  refine ⟨_, hmem, rfl, rfl, ?_, ?_, rfl, ?_, ?_, ?_, ?_, ?_⟩
  · exact listMax_mem (fun hmap => hne (List.map_eq_nil_iff.1 hmap))
  · exact fun x hx => le_listMax x hx
  · exact listMin_mem (fun hmap => hne (List.map_eq_nil_iff.1 hmap))
  · exact fun x hx => listMin_le x hx
  · show closes.getD (closes.length / 2) 0 = closes.getD (bucket.length / 2) 0
    rw [hlen]
  · exact List.perm_insertionSort _ _
  · exact List.sorted_insertionSort _ _

/-- C1 counterexample: the spec's own example bucket — two candles at one
timestamp with closes 11 and 10.5 — merges to `close = 11`
(`closes[Math.floor(2 / 2)] = closes[1]`, the upper-middle of the ascending
sort `[10.5, 11]`), not 10.5 as the claim states. -/
theorem mergeHistories_median_not_lower :
    mergeHistories
        [[{ time := 1000, «open» := 10, high := 12, low := 9, close := 11 }],
         [{ time := 1000, «open» := mkRat 21 2, high := mkRat 23 2, low := mkRat 19 2,
            close := mkRat 21 2 }]]
      = [{ time := 1000, «open» := 10, high := 12, low := 9, close := 11 }]
    ∧ ∀ c ∈ mergeHistories
        [[{ time := 1000, «open» := 10, high := 12, low := 9, close := 11 }],
         [{ time := 1000, «open» := mkRat 21 2, high := mkRat 23 2, low := mkRat 19 2,
            close := mkRat 21 2 }]],
        c.close ≠ mkRat 21 2 := by decide

/-- Witness for `mergeHistories_bucket_stats` at the spec's example bucket. -/
theorem mergeHistories_bucket_stats_witness :
    (([[{ time := 1000, «open» := 10, high := 12, low := 9, close := 11 }],
       [{ time := 1000, «open» := mkRat 21 2, high := mkRat 23 2, low := mkRat 19 2,
          close := mkRat 21 2 }]] : List (List OHLC)).flatten.filter
        (fun c => c.time == 1000) ≠ [])
    ∧ (let bucket := ([[{ time := 1000, «open» := 10, high := 12, low := 9, close := 11 }],
         [{ time := 1000, «open» := mkRat 21 2, high := mkRat 23 2, low := mkRat 19 2,
            close := mkRat 21 2 }]] : List (List OHLC)).flatten.filter (fun c => c.time == 1000)
       let closes := (bucket.map OHLC.close).insertionSort (· ≤ ·)
       ∃ c ∈ mergeHistories
          [[{ time := 1000, «open» := 10, high := 12, low := 9, close := 11 }],
           [{ time := 1000, «open» := mkRat 21 2, high := mkRat 23 2, low := mkRat 19 2,
              close := mkRat 21 2 }]],
         c.time = 1000
         ∧ c.high = listMax (bucket.map OHLC.high)
         ∧ c.high ∈ bucket.map OHLC.high
         ∧ (∀ x ∈ bucket.map OHLC.high, x ≤ c.high)
         ∧ c.low = listMin (bucket.map OHLC.low)
         ∧ c.low ∈ bucket.map OHLC.low
         ∧ (∀ x ∈ bucket.map OHLC.low, c.low ≤ x)
         ∧ c.close = closes.getD (bucket.length / 2) 0
         ∧ closes.Perm (bucket.map OHLC.close)
         ∧ closes.Sorted (· ≤ ·)) :=
  ⟨by decide, mergeHistories_bucket_stats _ 1000 (by decide)⟩

theorem insertBucket_fresh {c : OHLC} :
    ∀ {m : List (Int × List OHLC)}, (∀ p ∈ m, p.1 ≠ c.time) →
      insertBucket c m = m ++ [(c.time, [c])] := by
  intro m
  induction m with
  | nil => intro _; rfl
  | cons p rest ih =>
    intro h
    obtain ⟨t, arr⟩ := p
    have ht : t ≠ c.time := h (t, arr) (List.mem_cons_self _ _)
    simp only [insertBucket, if_neg ht, List.cons_append]
    rw [ih (fun q hq => h q (List.mem_cons_of_mem _ hq))]

theorem foldl_insertBucket_fresh :
    ∀ (cs : List OHLC) (m : List (Int × List OHLC)),
      (cs.map OHLC.time).Nodup →
      (∀ p ∈ m, ∀ c ∈ cs, p.1 ≠ c.time) →
      cs.foldl (fun m c => insertBucket c m) m = m ++ cs.map (fun c => (c.time, [c])) := by
  intro cs
  induction cs with
  | nil => intro m _ _; simp
  | cons c cs ih =>
    intro m hnd hfresh
    have hnd' : (cs.map OHLC.time).Nodup := by
      rw [List.map_cons, List.nodup_cons] at hnd
      exact hnd.2
    have hhead : c.time ∉ cs.map OHLC.time := by
      rw [List.map_cons, List.nodup_cons] at hnd
      exact hnd.1
    rw [List.foldl_cons,
      insertBucket_fresh (fun p hp => hfresh p hp c (List.mem_cons_self _ _)),
      ih _ hnd' ?fresh]
    · simp
    case fresh =>
      intro p hp c' hc'
      rcases List.mem_append.1 hp with hm | hnew
      · exact hfresh p hm c' (List.mem_cons_of_mem _ hc')
      · have hpe : p = (c.time, [c]) := by simpa using hnew
        subst hpe
        intro hcontra
        have hmem2 : c'.time ∈ cs.map OHLC.time := List.mem_map_of_mem OHLC.time hc'
        rw [← hcontra] at hmem2
        exact hhead hmem2

theorem mergeBucket_single (c : OHLC) : mergeBucket c.time [c] = c := by
  obtain ⟨t, o, h, l, cl⟩ := c
  simp [mergeBucket, List.insertionSort, List.orderedInsert, listMax, listMin, List.getD]

/-- C4: for histories whose timestamps are pairwise distinct (in particular
for two Histories — strictly time-ascending sequences — with disjoint
timestamp sets), merging is the timestamp-sorted concatenation with every
candle unchanged (its close being the median of the singleton bucket, i.e.
its own close); a single sorted history round-trips unchanged. -/
theorem mergeHistories_disjoint_spec :
    (∀ H1 H2 : List OHLC, ((H1 ++ H2).map OHLC.time).Nodup →
        mergeHistories [H1, H2] = (H1 ++ H2).insertionSort timeLE)
    ∧ (∀ H : List OHLC, H.Pairwise (fun a b => a.time < b.time) →
        mergeHistories [H] = H) := by
  have key : ∀ cs : List OHLC, (cs.map OHLC.time).Nodup →
      (cs.foldl (fun m c => insertBucket c m) []).map (fun p => mergeBucket p.1 p.2) = cs := by
    intro cs hnd
    rw [foldl_insertBucket_fresh cs [] hnd (by simp), List.nil_append, List.map_map]
    calc cs.map ((fun p : Int × List OHLC => mergeBucket p.1 p.2) ∘ fun c => (c.time, [c]))
        = cs.map id := List.map_congr_left (fun c _ => mergeBucket_single c)
      _ = cs := List.map_id cs
  constructor
  · intro H1 H2 hnd
    show ((bucketsOf [H1, H2]).map fun p => mergeBucket p.1 p.2).insertionSort timeLE = _
    unfold bucketsOf
    rw [show ([H1, H2] : List (List OHLC)).flatten = H1 ++ H2 by simp, key _ hnd]
  · intro H hp
    have hnd : (H.map OHLC.time).Nodup :=
      List.pairwise_map.2 (hp.imp fun h => ne_of_lt h)
    show ((bucketsOf [H]).map fun p => mergeBucket p.1 p.2).insertionSort timeLE = _
    unfold bucketsOf
    rw [show ([H] : List (List OHLC)).flatten = H by simp, key _ hnd]
    exact List.Sorted.insertionSort_eq (hp.imp (fun h => le_of_lt h))

/-- Witness for `mergeHistories_disjoint_spec` on two disjoint singleton
histories. -/
theorem mergeHistories_disjoint_spec_witness :
    ((([(⟨1, 1, 2, 0, 1⟩ : OHLC)] ++ [(⟨2, 3, 4, 2, 3⟩ : OHLC)]).map OHLC.time).Nodup)
    ∧ mergeHistories [[(⟨1, 1, 2, 0, 1⟩ : OHLC)], [(⟨2, 3, 4, 2, 3⟩ : OHLC)]]
        = ([(⟨1, 1, 2, 0, 1⟩ : OHLC)] ++ [(⟨2, 3, 4, 2, 3⟩ : OHLC)]).insertionSort timeLE
    ∧ ([(⟨1, 1, 2, 0, 1⟩ : OHLC), ⟨2, 3, 4, 2, 3⟩].Pairwise (fun a b => a.time < b.time))
    ∧ mergeHistories [[(⟨1, 1, 2, 0, 1⟩ : OHLC), ⟨2, 3, 4, 2, 3⟩]]
        = [(⟨1, 1, 2, 0, 1⟩ : OHLC), ⟨2, 3, 4, 2, 3⟩] :=
  ⟨by decide, mergeHistories_disjoint_spec.1 _ _ (by decide), by decide,
   mergeHistories_disjoint_spec.2 _ (by decide)⟩

/-- C3: `getCandles` consults the Binance adapter first (a successful
nonempty Binance result is returned as-is, whatever CoinGecko would say);
when Binance throws, returns `null`, or returns an empty list, it returns
CoinGecko's list (so with Binance throwing and CoinGecko returning three
candles it returns exactly those three); when both fail it returns `[]`.
Totality of `getCandles` — it never throws to its caller — is expressed by
its plain (exception-free) return type. -/
theorem getCandles_fallback_spec :
    (∀ (cg : Except Unit (Option (List HOHLC))) (l : List HOHLC),
        l ≠ [] → getCandles (Except.ok (some l)) cg = l)
    ∧ (∀ (bin cg : Except Unit (Option (List HOHLC))),
        adapterList bin = none ∨ adapterList bin = some [] →
        getCandles bin cg = (adapterList cg).getD [])
    ∧ (∀ l3 : List HOHLC, l3.length = 3 →
        getCandles (Except.error ()) (Except.ok (some l3)) = l3)
    ∧ getCandles (Except.error ()) (Except.error ()) = []
    ∧ getCandles (Except.error ()) (Except.ok none) = []
    ∧ getCandles (Except.ok none) (Except.error ()) = [] := by
  refine ⟨?_, ?_, ?_, rfl, rfl, rfl⟩
  · intro cg l hl
    simp [getCandles, adapterList, hl]
  · intro bin cg h
    rcases h with h | h <;> simp [getCandles, h]
  · intro l3 _
    simp [getCandles, adapterList]

/-- Witness for `getCandles_fallback_spec` at concrete adapter outcomes. -/
theorem getCandles_fallback_spec_witness :
    ([({ time := 1, «open» := 2, high := 3, low := 1, close := 2, volume := 0 } : HOHLC)] ≠ [])
    ∧ getCandles
        (Except.ok (some [{ time := 1, «open» := 2, high := 3, low := 1, close := 2, volume := 0 }]))
        (Except.error ())
        = [{ time := 1, «open» := 2, high := 3, low := 1, close := 2, volume := 0 }]
    ∧ ([({ time := 1, «open» := 2, high := 3, low := 1, close := 2, volume := 0 } : HOHLC),
        { time := 2, «open» := 2, high := 3, low := 1, close := 2, volume := 0 },
        { time := 3, «open» := 2, high := 3, low := 1, close := 2, volume := 0 }].length = 3)
    ∧ getCandles (Except.error ())
        (Except.ok (some [{ time := 1, «open» := 2, high := 3, low := 1, close := 2, volume := 0 },
          { time := 2, «open» := 2, high := 3, low := 1, close := 2, volume := 0 },
          { time := 3, «open» := 2, high := 3, low := 1, close := 2, volume := 0 }]))
        = [{ time := 1, «open» := 2, high := 3, low := 1, close := 2, volume := 0 },
           { time := 2, «open» := 2, high := 3, low := 1, close := 2, volume := 0 },
           { time := 3, «open» := 2, high := 3, low := 1, close := 2, volume := 0 }] :=
  ⟨by decide,
   getCandles_fallback_spec.1 _ _ (by decide),
   by decide,
   getCandles_fallback_spec.2.2.1 _ (by decide)⟩

section ConcreteEvaluations

attribute [local semireducible] Rat.add Rat.mul Rat.sub Rat.inv

/-- C7 is violated by the code: `genMock` can emit a candle with
`close > high`.  For symbol `"SOL"`, `days = 1`, `interval = "1d"` (clock
reading 0, which only shifts timestamps) the single emitted candle has
`high = 99.5842 < close = 99.5972`: the step's volatility factor is below 1,
so `close = open + drift` overshoots `high = open + |drift|·vol`. -/
theorem genMock_close_exceeds_high :
    genMock "SOL" 1 "1d" 0 =
      [{ time := -86400, «open» := mkRat 993353 10000, high := mkRat 497921 5000,
         low := mkRat 61929 625, close := mkRat 248993 2500 }]
    ∧ (∃ c ∈ genMock "SOL" 1 "1d" 0, c.high < c.close) := by decide

/-- C8 counterexample: `genMock` reads the wall clock
(`now = Math.floor(Date.now() / 1000)`), so two calls with the same
arguments made at different clock seconds (here 0 and 3600) do not produce
byte-identical output — their timestamps differ. -/
theorem genMock_clock_dependent :
    genMock "BTC" 1 "1h" 0 ≠ genMock "BTC" 1 "1h" 3600 := by decide

end ConcreteEvaluations

/-- C8 (amended): for every symbol, days, interval and clock reading, the
sequence has length `min 1000 (days·86400 / step)`, its timestamps are the
arithmetic progression ending `step` before `now` (consecutive candles
exactly `step` apart, strictly ascending), and the OHLC price fields are
byte-identical across calls regardless of the clock — only timestamps
depend on the captured clock second; the `"BTC"`, 1-day, `"1h"` instance
has exactly `min 1000 24 = 24` candles. -/
theorem genMock_shape (symbol : String) (days : Nat) (interval : String) (now now' : Int) :
    (genMock symbol days interval now).length = min 1000 (days * 86400 / stepOf interval)
    ∧ (genMock symbol days interval now).map OHLC.time
        = (List.range (min 1000 (days * 86400 / stepOf interval))).map
            (fun j : Nat =>
              now - (((min 1000 (days * 86400 / stepOf interval) : Nat) : Int) - ((j : Int)))
                * ((stepOf interval : Nat) : Int))
    ∧ List.Chain'
        (fun a b => b.time = a.time + ((stepOf interval : Nat) : Int) ∧ a.time < b.time)
        (genMock symbol days interval now)
    ∧ (genMock symbol days interval now).map (fun c => (c.«open», c.high, c.low, c.close))
        = (genMock symbol days interval now').map (fun c => (c.«open», c.high, c.low, c.close))
    ∧ (genMock "BTC" 1 "1h" now).length = 24 := by
  refine ⟨genLoop_length _ _ _ _ _, genLoop_time_map _ _ _ _ _, ?_, genLoop_prices _ _ _ _ _ _, ?_⟩
  · have hpos := stepOf_pos interval
    exact (genLoop_chain now (stepOf interval) _ _ _).imp (fun a b h => ⟨h, by omega⟩)
  · rw [show genMock "BTC" 1 "1h" now
        = genLoop now (stepOf "1h") (min 1000 (1 * 86400 / stepOf "1h"))
            (lcgNext (seedInit "BTC"))
            (100 + (lcgRat (lcgNext (seedInit "BTC")) - mkRat 1 2) * 5) from rfl,
      genLoop_length]
    decide

section AggregateLemmas

theorem setProto_symbol (p : Proto) (px : Rat) (a : Acc) :
    (setProto p px a).symbol = a.symbol := by
  cases p <;> rfl

theorem setProto_vals (p : Proto) (px : Rat) (a : Acc) :
    (setProto p px a).vals = a.vals := by
  cases p <;> rfl

theorem find?_symbol_cons_self {q : String} {a : Acc} (ha : a.symbol = q) (rest : List Acc) :
    (a :: rest).find? (fun x => x.symbol == q) = some a :=
  List.find?_cons_of_pos _ (show (fun x : Acc => x.symbol == q) a = true from beq_iff_eq.2 ha)

theorem find?_symbol_cons_ne {q : String} {a : Acc} (ha : a.symbol ≠ q) (rest : List Acc) :
    (a :: rest).find? (fun x => x.symbol == q) = rest.find? (fun x => x.symbol == q) :=
  List.find?_cons_of_neg _ (show ¬(fun x : Acc => x.symbol == q) a = true from
    fun hc => ha (beq_iff_eq.1 hc))

theorem find?_insertAcc (p : Proto) (sym : String) (px : Rat) (q : String) :
    ∀ accs : List Acc,
      (insertAcc p sym px accs).find? (fun a => a.symbol == q)
        = if q = sym then
            match accs.find? (fun a => a.symbol == q) with
            | some a => some (setProto p px { a with vals := a.vals ++ [px] })
            | none => some (setProto p px { symbol := sym, vals := [px] })
          else accs.find? (fun a => a.symbol == q) := by
  intro accs
  induction accs with
  | nil =>
    by_cases hq : q = sym
    · subst hq
      rw [if_pos rfl]
      simp only [insertAcc]
      rw [find?_symbol_cons_self (by rw [setProto_symbol])]
      rfl
    · rw [if_neg hq]
      simp only [insertAcc]
      rw [find?_symbol_cons_ne (by rw [setProto_symbol]; exact fun h => hq h.symm)]
  | cons a rest ih =>
    by_cases ha : a.symbol = sym
    · simp only [insertAcc]
      rw [if_pos ha]
      by_cases hq : q = sym
      · subst hq
        rw [find?_symbol_cons_self (by rw [setProto_symbol]; exact ha), if_pos rfl,
          find?_symbol_cons_self ha]
      · have hne : a.symbol ≠ q := fun h => hq (h.symm.trans ha)
        rw [find?_symbol_cons_ne (by rw [setProto_symbol]; exact hne), if_neg hq,
          find?_symbol_cons_ne hne]
    · simp only [insertAcc]
      rw [if_neg ha]
      by_cases haq : a.symbol = q
      · have hq : ¬ q = sym := fun h => ha (haq.trans h)
        rw [find?_symbol_cons_self haq, if_neg hq, find?_symbol_cons_self haq]
      · rw [find?_symbol_cons_ne haq, ih]
        by_cases hq : q = sym
        · rw [if_pos hq, if_pos hq, find?_symbol_cons_ne haq]
        · rw [if_neg hq, if_neg hq, find?_symbol_cons_ne haq]

theorem find?_foldl_addToken (p : Proto) (sym : String) (hsym : sym ≠ "") :
    ∀ (ts : List TokenPrice) (accs : List Acc),
      ((ts.foldl (addToken p) accs).find? (fun a => a.symbol == sym)).map Acc.vals
        = if symVals sym ts = []
          then (accs.find? (fun a => a.symbol == sym)).map Acc.vals
          else some ((((accs.find? (fun a => a.symbol == sym)).map Acc.vals).getD [])
            ++ symVals sym ts) := by
  intro ts
  induction ts with
  | nil => intro accs; simp [symVals]
  | cons t ts ih =>
    intro accs
    rw [List.foldl_cons]
    by_cases hnorm : normSymJS t.symbol = ""
    · have hneq : ¬ normSymJS t.symbol = sym := fun h => hsym (h ▸ hnorm)
      rw [show addToken p accs t = accs from by simp [addToken, hnorm],
        show symVals sym (t :: ts) = symVals sym ts from by
          simp [symVals, List.filterMap_cons, hneq]]
      exact ih accs
    · by_cases heq : normSymJS t.symbol = sym
      · rw [show addToken p accs t = insertAcc p sym t.priceUSD accs from by
            simp [addToken, hnorm, heq, hsym],
          show symVals sym (t :: ts) = t.priceUSD :: symVals sym ts from by
            simp [symVals, List.filterMap_cons, heq],
          ih (insertAcc p sym t.priceUSD accs), find?_insertAcc, if_pos rfl]
        cases hfind : accs.find? (fun a => a.symbol == sym) with
        | some a =>
          simp only [Option.map_some', setProto_vals]
          by_cases h2 : symVals sym ts = []
          · rw [if_pos h2, if_neg (List.cons_ne_nil _ _), h2]
            simp
          · rw [if_neg h2, if_neg (List.cons_ne_nil _ _)]
            simp [List.append_assoc]
        | none =>
          simp only [Option.map_some', Option.map_none', setProto_vals]
          by_cases h2 : symVals sym ts = []
          · rw [if_pos h2, if_neg (List.cons_ne_nil _ _), h2]
            simp
          · rw [if_neg h2, if_neg (List.cons_ne_nil _ _)]
            simp
      · rw [show addToken p accs t = insertAcc p (normSymJS t.symbol) t.priceUSD accs from by
            simp [addToken, hnorm],
          show symVals sym (t :: ts) = symVals sym ts from by
            simp [symVals, List.filterMap_cons, heq],
          ih (insertAcc p (normSymJS t.symbol) t.priceUSD accs), find?_insertAcc,
          if_neg (show ¬sym = normSymJS t.symbol from fun h => heq h.symm)]

theorem find?_addSnap (p : Proto) (snap : Option Snapshot) (accs : List Acc) (sym : String)
    (hsym : sym ≠ "") :
    ((addSnap p snap accs).find? (fun a => a.symbol == sym)).map Acc.vals
      = if symVals sym (tokensOf snap) = []
        then (accs.find? (fun a => a.symbol == sym)).map Acc.vals
        else some ((((accs.find? (fun a => a.symbol == sym)).map Acc.vals).getD [])
          ++ symVals sym (tokensOf snap)) := by
  cases snap with
  | none => simp [addSnap, tokensOf, symVals]
  | some s =>
    cases hts : s.tokens with
    | none =>
      rw [show addSnap p (some s) accs = accs from by simp [addSnap, hts],
        show tokensOf (some s) = [] from by simp [tokensOf, hts]]
      simp [symVals]
    | some ts =>
      rw [show addSnap p (some s) accs = ts.foldl (addToken p) accs from by
          simp [addSnap, hts],
        show tokensOf (some s) = ts from by simp [tokensOf, hts]]
      exact find?_foldl_addToken p sym hsym ts accs

theorem optVals_step (X new : List Rat) :
    (if new = [] then (if X = [] then none else some X)
     else some (((if X = [] then none else some X) : Option (List Rat)).getD [] ++ new))
      = if X ++ new = [] then none else some (X ++ new) := by
  by_cases hn : new = [] <;> by_cases hx : X = [] <;> simp [hn, hx]

theorem accsOf_find?_vals (uni sushi quick cake : Option Snapshot) (sym : String)
    (hsym : sym ≠ "") :
    ((accsOf uni sushi quick cake).find? (fun a => a.symbol == sym)).map Acc.vals
      = if valsFor uni sushi quick cake sym = [] then none
        else some (valsFor uni sushi quick cake sym) := by
  show ((addSnap .cake cake (addSnap .quick quick (addSnap .sushi sushi
      (addSnap .uni uni [])))).find? (fun a => a.symbol == sym)).map Acc.vals = _
  have e1 : ((addSnap .uni uni []).find? (fun a => a.symbol == sym)).map Acc.vals
      = if symVals sym (tokensOf uni) = [] then none
        else some (symVals sym (tokensOf uni)) := by
    rw [find?_addSnap _ _ _ _ hsym]
    simp [List.find?]
  have e2 : ((addSnap .sushi sushi (addSnap .uni uni [])).find?
        (fun a => a.symbol == sym)).map Acc.vals
      = if symVals sym (tokensOf uni) ++ symVals sym (tokensOf sushi) = [] then none
        else some (symVals sym (tokensOf uni) ++ symVals sym (tokensOf sushi)) := by
    rw [find?_addSnap _ _ _ _ hsym, e1, optVals_step]
  have e3 : ((addSnap .quick quick (addSnap .sushi sushi (addSnap .uni uni []))).find?
        (fun a => a.symbol == sym)).map Acc.vals
      = if symVals sym (tokensOf uni) ++ symVals sym (tokensOf sushi)
            ++ symVals sym (tokensOf quick) = [] then none
        else some (symVals sym (tokensOf uni) ++ symVals sym (tokensOf sushi)
            ++ symVals sym (tokensOf quick)) := by
    rw [find?_addSnap _ _ _ _ hsym, e2, optVals_step]
  rw [find?_addSnap _ _ _ _ hsym, e3, optVals_step]
  rfl

theorem aggregate_find?_row (uni sushi quick cake : Option Snapshot) (sym : String)
    (hsym : sym ≠ "") (hne : valsFor uni sushi quick cake sym ≠ []) :
    ∃ r, ((aggregate uni sushi quick cake).1.find? (fun r => r.symbol == sym)) = some r
      ∧ r ∈ (aggregate uni sushi quick cake).1
      ∧ r.symbol = sym
      ∧ r.price =
          (let sorted := (valsFor uni sushi quick cake sym).insertionSort (· ≤ ·)
           let m := sorted.getD (sorted.length / 2) 0
           if tooLarge sym m then none else some m) := by
  have hvals := accsOf_find?_vals uni sushi quick cake sym hsym
  rw [if_neg hne] at hvals
  obtain ⟨a, hfind, havals⟩ := Option.map_eq_some'.1 hvals
  have hpa := List.find?_some hfind
  have hasym : a.symbol = sym := by simpa using hpa
  have hrows : ((aggregate uni sushi quick cake).1.find? (fun r => r.symbol == sym))
      = some (rowOf a) := by
    show (((accsOf uni sushi quick cake).map rowOf).find? (fun r => r.symbol == sym)) = _
    rw [List.find?_map,
      show ((fun r : MarketRow => r.symbol == sym) ∘ rowOf)
        = (fun a : Acc => a.symbol == sym) from rfl,
      hfind, Option.map_some']
  refine ⟨rowOf a, hrows, List.mem_of_find?_eq_some hrows, hasym, ?_⟩
  show (rowOf a).price = _
  have hSlen : 0 < ((valsFor uni sushi quick cake sym).insertionSort (· ≤ ·)).length := by
    rw [(List.perm_insertionSort _ _).length_eq]
    exact List.length_pos.2 hne
  have hidx : ((valsFor uni sushi quick cake sym).insertionSort (· ≤ ·)).length / 2
      < ((valsFor uni sushi quick cake sym).insertionSort (· ≤ ·)).length :=
    Nat.div_lt_self hSlen (by norm_num)
  simp only [rowOf, havals, hasym]
  rw [List.getElem?_eq_getElem hidx]
  simp only [List.getD_eq_getElem?_getD, List.getElem?_eq_getElem hidx, Option.getD_some]

end AggregateLemmas

theorem tooLarge_iff (sym : String) (px : Rat) :
    tooLarge sym px = true ↔ 1000000 < px ∧ sym ∉ allowList := by
  unfold tooLarge
  rw [Bool.and_eq_true, decide_eq_true_eq, Bool.not_eq_true', ← Bool.not_eq_true]
  constructor
  · exact fun h => ⟨h.1, fun hmem => h.2 (List.elem_iff.2 hmem)⟩
  · exact fun h => ⟨h.1, fun hc => h.2 (List.elem_iff.1 hc)⟩

theorem mem_valsFor_of_token {snap : Snapshot} {t : TokenPrice}
    (ht : t ∈ snap.tokens.getD []) :
    t.priceUSD ∈ symVals (normSymJS t.symbol) (tokensOf (some snap)) := by
  have htk : tokensOf (some snap) = snap.tokens.getD [] := rfl
  rw [htk]
  unfold symVals
  exact List.mem_filterMap.2 ⟨t, ht, by rw [if_pos rfl]⟩

/-- C2: aggregation over four optional per-protocol snapshots (absent =
disabled or failed) is total, every nonempty normalised symbol observed in a
present snapshot's tokens gets a row, and an absent snapshot behaves exactly
like an empty one — it contributes nothing to rows or pools and cannot make
the aggregation fail.  (The hook's `error`/`isLoading` fields are
SWR-transport state outside this pure aggregation.) -/
theorem aggregate_partial_failure (uni sushi quick cake : Option Snapshot) :
    (∀ (p : Proto) (snap : Snapshot), (p, some snap) ∈ protoSnaps uni sushi quick cake →
      ∀ t ∈ snap.tokens.getD [], normSymJS t.symbol ≠ "" →
        ∃ r ∈ (aggregate uni sushi quick cake).1, r.symbol = normSymJS t.symbol)
    ∧ (∀ s2 q2 c2 : Option Snapshot, aggregate none s2 q2 c2
        = aggregate (some { tokens := some [], pools := some [] }) s2 q2 c2)
    ∧ (∀ u2 q2 c2 : Option Snapshot, aggregate u2 none q2 c2
        = aggregate u2 (some { tokens := some [], pools := some [] }) q2 c2)
    ∧ (∀ u2 s2 c2 : Option Snapshot, aggregate u2 s2 none c2
        = aggregate u2 s2 (some { tokens := some [], pools := some [] }) c2)
    ∧ (∀ u2 s2 q2 : Option Snapshot, aggregate u2 s2 q2 none
        = aggregate u2 s2 q2 (some { tokens := some [], pools := some [] })) := by
  refine ⟨?_, fun _ _ _ => rfl, fun _ _ _ => rfl, fun _ _ _ => rfl, fun _ _ _ => rfl⟩
  intro p snap hmem t ht hsym
  have hval : t.priceUSD ∈ valsFor uni sushi quick cake (normSymJS t.symbol) := by
    simp only [protoSnaps, List.mem_cons, List.mem_singleton,
      List.not_mem_nil, or_false] at hmem
    have hbase : t.priceUSD ∈ symVals (normSymJS t.symbol) (tokensOf (some snap)) :=
      mem_valsFor_of_token ht
    unfold valsFor
    rcases hmem with h | h | h | h
    · rw [show uni = some snap from (Prod.ext_iff.1 h.symm).2]
      exact List.mem_append_left _ (List.mem_append_left _
        (List.mem_append_left _ (hbase)))
    · rw [show sushi = some snap from (Prod.ext_iff.1 h.symm).2]
      exact List.mem_append_left _ (List.mem_append_left _
        (List.mem_append_right _ (hbase)))
    · rw [show quick = some snap from (Prod.ext_iff.1 h.symm).2]
      exact List.mem_append_left _ (List.mem_append_right _ (hbase))
    · rw [show cake = some snap from (Prod.ext_iff.1 h.symm).2]
      exact List.mem_append_right _ (hbase)
  obtain ⟨r, _, hrmem, hrsym, _⟩ :=
    aggregate_find?_row uni sushi quick cake (normSymJS t.symbol) hsym
      (List.ne_nil_of_mem hval)
  exact ⟨r, hrmem, hrsym⟩

/-- Witness for `aggregate_partial_failure`: one present snapshot among
three absent ones still yields a row for its symbol. -/
theorem aggregate_partial_failure_witness :
    ((Proto.uni, some ({ tokens := some [{ symbol := "BTC", priceUSD := 5 }], pools := none }
        : Snapshot))
      ∈ protoSnaps (some { tokens := some [{ symbol := "BTC", priceUSD := 5 }], pools := none })
          none none none)
    ∧ (({ symbol := "BTC", priceUSD := 5 } : TokenPrice)
        ∈ (({ tokens := some [{ symbol := "BTC", priceUSD := 5 }], pools := none }
            : Snapshot)).tokens.getD [])
    ∧ normSymJS (TokenPrice.symbol { symbol := "BTC", priceUSD := 5 }) ≠ ""
    ∧ ∃ r ∈ (aggregate
          (some { tokens := some [{ symbol := "BTC", priceUSD := 5 }], pools := none })
          none none none).1,
        r.symbol = normSymJS (TokenPrice.symbol { symbol := "BTC", priceUSD := 5 }) :=
  ⟨by decide, by decide, by decide,
    (aggregate_partial_failure
        (some { tokens := some [{ symbol := "BTC", priceUSD := 5 }], pools := none })
        none none none).1 Proto.uni
      { tokens := some [{ symbol := "BTC", priceUSD := 5 }], pools := none } (by decide)
      { symbol := "BTC", priceUSD := 5 } (by decide) (by decide)⟩

/-- C6 counterexample: a symbol with accumulated prices 1 and 2 gets
`price = 2` — `sorted[Math.floor(2 / 2)] = sorted[1]`, the upper-middle of
the ascending sort — not the lower-middle 1 the claim states. -/
theorem aggregate_median_not_lower :
    (aggregate (some { tokens := some [{ symbol := "AAA", priceUSD := 1 }], pools := none })
        (some { tokens := some [{ symbol := "AAA", priceUSD := 2 }], pools := none })
        none none).1
      = [{ symbol := "AAA", price := some 2, uni := some 1, sushi := some 2,
           quick := none, cake := none }]
    ∧ ∀ r ∈ (aggregate
          (some { tokens := some [{ symbol := "AAA", priceUSD := 1 }], pools := none })
          (some { tokens := some [{ symbol := "AAA", priceUSD := 2 }], pools := none })
          none none).1,
        r.price ≠ some 1 := by decide

/-- C6 (amended): for every symbol in `aggregate`'s output, the row's price
(when not suppressed) is the element at index `⌊n/2⌋` of the ascending
numeric sort of all `priceUSD` values accumulated for that symbol across the
present snapshots — the *upper*-middle element for even-length lists; the
sort is an ascending-sorted permutation of the accumulated list (stable
numeric sort, independent of iteration order). -/
theorem aggregate_median_rule (uni sushi quick cake : Option Snapshot) (sym : String)
    (hsym : sym ≠ "") (hne : valsFor uni sushi quick cake sym ≠ []) :
    let vals := valsFor uni sushi quick cake sym
    let sorted := vals.insertionSort (· ≤ ·)
    let m := sorted.getD (sorted.length / 2) 0
    sorted.Sorted (· ≤ ·)
    ∧ sorted.Perm vals
    ∧ ∃ r ∈ (aggregate uni sushi quick cake).1,
        r.symbol = sym ∧ r.price = (if tooLarge sym m then none else some m) := by
  intro vals sorted m
  refine ⟨List.sorted_insertionSort _ _, List.perm_insertionSort _ _, ?_⟩
  obtain ⟨r, _, hrmem, hrsym, hprice⟩ :=
    aggregate_find?_row uni sushi quick cake sym hsym hne
  exact ⟨r, hrmem, hrsym, hprice⟩

/-- Witness for `aggregate_median_rule` on the two-protocol symbol "AAA"
with prices 1 and 2. -/
theorem aggregate_median_rule_witness :
    ("AAA" : String) ≠ ""
    ∧ valsFor (some { tokens := some [{ symbol := "AAA", priceUSD := 1 }], pools := none })
        (some { tokens := some [{ symbol := "AAA", priceUSD := 2 }], pools := none })
        none none "AAA" ≠ []
    ∧ (let vals := valsFor
          (some { tokens := some [{ symbol := "AAA", priceUSD := 1 }], pools := none })
          (some { tokens := some [{ symbol := "AAA", priceUSD := 2 }], pools := none })
          none none "AAA"
       let sorted := vals.insertionSort (· ≤ ·)
       let m := sorted.getD (sorted.length / 2) 0
       sorted.Sorted (· ≤ ·)
       ∧ sorted.Perm vals
       ∧ ∃ r ∈ (aggregate
            (some { tokens := some [{ symbol := "AAA", priceUSD := 1 }], pools := none })
            (some { tokens := some [{ symbol := "AAA", priceUSD := 2 }], pools := none })
            none none).1,
          r.symbol = "AAA" ∧ r.price = (if tooLarge "AAA" m then none else some m)) :=
  ⟨by decide, by decide, aggregate_median_rule _ _ none none "AAA" (by decide) (by decide)⟩

/-- C5: a symbol whose cross-protocol median exceeds 1,000,000 USD gets
`price = none` unless it is allow-listed (BTC, WBTC, TBTC, ETH, WETH, PAXG,
RETH, STETH, WSTETH), in which case it keeps its median; and the spec's two
concrete instances: BTC priced 2,000,000 and 2,100,000 by two protocols
keeps a non-null median price (2,100,000), while non-allow-listed XYZ priced
2,000,000 by every protocol is suppressed to `none`. -/
theorem aggregate_suppression_rule (uni sushi quick cake : Option Snapshot) (sym : String)
    (hsym : sym ≠ "") (hne : valsFor uni sushi quick cake sym ≠ []) :
    (let vals := valsFor uni sushi quick cake sym
     let sorted := vals.insertionSort (· ≤ ·)
     let m := sorted.getD (sorted.length / 2) 0
     ∃ r ∈ (aggregate uni sushi quick cake).1,
       r.symbol = sym
       ∧ (1000000 < m → sym ∉ allowList → r.price = none)
       ∧ (sym ∈ allowList → r.price = some m)
       ∧ (m ≤ 1000000 → r.price = some m))
    ∧ (aggregate (some { tokens := some [{ symbol := "BTC", priceUSD := 2000000 }], pools := none })
        (some { tokens := some [{ symbol := "BTC", priceUSD := 2100000 }], pools := none })
        none none).1
      = [{ symbol := "BTC", price := some 2100000, uni := some 2000000,
           sushi := some 2100000, quick := none, cake := none }]
    ∧ (aggregate (some { tokens := some [{ symbol := "XYZ", priceUSD := 2000000 }], pools := none })
        (some { tokens := some [{ symbol := "XYZ", priceUSD := 2000000 }], pools := none })
        (some { tokens := some [{ symbol := "XYZ", priceUSD := 2000000 }], pools := none })
        (some { tokens := some [{ symbol := "XYZ", priceUSD := 2000000 }], pools := none })).1
      = [{ symbol := "XYZ", price := none, uni := some 2000000, sushi := some 2000000,
           quick := some 2000000, cake := some 2000000 }] := by
  refine ⟨?_, by decide, by decide⟩
  intro vals sorted m
  obtain ⟨r, _, hrmem, hrsym, hprice⟩ :=
    aggregate_find?_row uni sushi quick cake sym hsym hne
  refine ⟨r, hrmem, hrsym, ?_, ?_, ?_⟩
  · intro hm hnot
    rw [hprice]
    exact if_pos ((tooLarge_iff sym m).2 ⟨hm, hnot⟩)
  · intro hallow
    rw [hprice]
    refine if_neg ?_
    intro hc
    exact ((tooLarge_iff sym m).1 hc).2 hallow
  · intro hm
    rw [hprice]
    refine if_neg ?_
    intro hc
    exact absurd ((tooLarge_iff sym m).1 hc).1 (not_lt.2 hm)

/-- Witness for `aggregate_suppression_rule` on the BTC example. -/
theorem aggregate_suppression_rule_witness :
    ("BTC" : String) ≠ ""
    ∧ valsFor (some { tokens := some [{ symbol := "BTC", priceUSD := 2000000 }], pools := none })
        (some { tokens := some [{ symbol := "BTC", priceUSD := 2100000 }], pools := none })
        none none "BTC" ≠ []
    ∧ (let vals := valsFor
          (some { tokens := some [{ symbol := "BTC", priceUSD := 2000000 }], pools := none })
          (some { tokens := some [{ symbol := "BTC", priceUSD := 2100000 }], pools := none })
          none none "BTC"
       let sorted := vals.insertionSort (· ≤ ·)
       let m := sorted.getD (sorted.length / 2) 0
       ∃ r ∈ (aggregate
            (some { tokens := some [{ symbol := "BTC", priceUSD := 2000000 }], pools := none })
            (some { tokens := some [{ symbol := "BTC", priceUSD := 2100000 }], pools := none })
            none none).1,
          r.symbol = "BTC"
          ∧ (1000000 < m → "BTC" ∉ allowList → r.price = none)
          ∧ ("BTC" ∈ allowList → r.price = some m)
          ∧ (m ≤ 1000000 → r.price = some m)) :=
  ⟨by decide, by decide,
    (aggregate_suppression_rule _ _ none none "BTC" (by decide) (by decide)).1⟩

section NormalizeSymbolLemmas

theorem char_toNat_ofNat {n : Nat} (h : n < 55296) : (Char.ofNat n).toNat = n := by
  have hv : n.isValidChar := Or.inl h
  unfold Char.ofNat
  rw [dif_pos hv]
  rfl

theorem char_eq_of_toNat_eq {c d : Char} (h : c.toNat = d.toNat) : c = d :=
  Char.eq_of_val_eq (UInt32.ext h)

theorem toNat_jsToLowerChar (c : Char) :
    (jsToLowerChar c).toNat
      = if 65 ≤ c.toNat ∧ c.toNat ≤ 90 then c.toNat + 32 else c.toNat := by
  unfold jsToLowerChar
  split
  next h => exact char_toNat_ofNat (by omega)
  next h => rfl

theorem toNat_jsToUpperChar (c : Char) :
    (jsToUpperChar c).toNat
      = if 97 ≤ c.toNat ∧ c.toNat ≤ 122 then c.toNat - 32
        else if c.toNat = 383 then 83 else c.toNat := by
  unfold jsToUpperChar
  split
  next h => exact char_toNat_ofNat (by omega)
  next h =>
    split
    next h2 => rfl
    next h2 => rfl

theorem isJsSpace_jsToLowerChar (c : Char) : isJsSpace (jsToLowerChar c) = isJsSpace c := by
  unfold isJsSpace
  rw [toNat_jsToLowerChar, Bool.eq_iff_iff]
  simp only [Bool.or_eq_true, decide_eq_true_eq]
  split
  next h => omega
  next h => exact Iff.rfl

theorem isJsSpace_jsToUpperChar (c : Char) : isJsSpace (jsToUpperChar c) = isJsSpace c := by
  unfold isJsSpace
  rw [toNat_jsToUpperChar, Bool.eq_iff_iff]
  simp only [Bool.or_eq_true, decide_eq_true_eq]
  split
  next h => omega
  next h =>
    split
    next h2 => omega
    next h2 => exact Iff.rfl

theorem jsToLowerChar_eq_self {c : Char} (h : ¬(65 ≤ c.toNat ∧ c.toNat ≤ 90)) :
    jsToLowerChar c = c := by
  unfold jsToLowerChar
  rw [if_neg h]

theorem jsToLowerChar_idem (c : Char) :
    jsToLowerChar (jsToLowerChar c) = jsToLowerChar c := by
  apply jsToLowerChar_eq_self
  rw [toNat_jsToLowerChar]
  split <;> omega

theorem toNat_jsToLowerChar_lt_128 {c : Char} (h : c.toNat < 128) :
    (jsToLowerChar c).toNat < 128 := by
  rw [toNat_jsToLowerChar]
  split <;> omega

theorem lower_upper_lower (c : Char) (hascii : c.toNat < 128) :
    jsToLowerChar (jsToUpperChar (jsToLowerChar c)) = jsToLowerChar c := by
  apply char_eq_of_toNat_eq
  simp only [toNat_jsToLowerChar, toNat_jsToUpperChar]
  split_ifs <;> omega

theorem dropWhile_head_not (p : Char → Bool) :
    ∀ (l : List Char) (c : Char), (l.dropWhile p).head? = some c → ¬ p c = true := by
  intro l
  induction l with
  | nil => intro c h; simp [List.dropWhile] at h
  | cons a l ih =>
    intro c h
    rw [List.dropWhile_cons] at h
    by_cases hp : p a = true
    · rw [if_pos hp] at h
      exact ih c h
    · rw [if_neg hp] at h
      rw [List.head?_cons, Option.some.injEq] at h
      rw [← h]
      exact hp

theorem dropWhile_idem (p : Char → Bool) (l : List Char) :
    (l.dropWhile p).dropWhile p = l.dropWhile p := by
  induction l with
  | nil => rfl
  | cons a l ih =>
    rw [List.dropWhile_cons]
    by_cases hp : p a = true
    · rw [if_pos hp]
      exact ih
    · rw [if_neg hp, List.dropWhile_cons, if_neg hp]

theorem dropWhile_getLast? (p : Char → Bool) :
    ∀ l : List Char, l.dropWhile p ≠ [] → (l.dropWhile p).getLast? = l.getLast? := by
  intro l
  induction l with
  | nil => intro h; exact absurd rfl h
  | cons a l ih =>
    intro h
    rw [List.dropWhile_cons] at h ⊢
    by_cases hp : p a = true
    · rw [if_pos hp] at h ⊢
      rw [ih h]
      have hl : l ≠ [] := by
        intro he
        rw [he] at h
        exact h rfl
      obtain ⟨b, m, rfl⟩ := List.exists_cons_of_ne_nil hl
      rw [List.getLast?_cons_cons]
    · rw [if_neg hp] at h ⊢

theorem dropWhile_eq_self_of_head (p : Char → Bool) (l : List Char)
    (h : ∀ c, l.head? = some c → ¬ p c = true) : l.dropWhile p = l := by
  cases l with
  | nil => rfl
  | cons a m => rw [List.dropWhile_cons, if_neg (h a rfl)]

theorem jsTrim_idem (l : List Char) : jsTrim (jsTrim l) = jsTrim l := by
  unfold jsTrim
  by_cases hv : (l.dropWhile isJsSpace).reverse.dropWhile isJsSpace = []
  · rw [hv]
    simp
  · have h1 : ((l.dropWhile isJsSpace).reverse.dropWhile isJsSpace).reverse.dropWhile isJsSpace
        = ((l.dropWhile isJsSpace).reverse.dropWhile isJsSpace).reverse := by
      apply dropWhile_eq_self_of_head
      intro c hc
      rw [List.head?_reverse] at hc
      rw [dropWhile_getLast? _ _ hv] at hc
      rw [List.getLast?_reverse] at hc
      exact dropWhile_head_not isJsSpace l c hc
    rw [h1, List.reverse_reverse, dropWhile_idem]

theorem dropWhile_map_eq (f : Char → Char) (hf : ∀ c, isJsSpace (f c) = isJsSpace c)
    (l : List Char) : (l.map f).dropWhile isJsSpace = (l.dropWhile isJsSpace).map f := by
  induction l with
  | nil => rfl
  | cons a m ih =>
    rw [List.map_cons, List.dropWhile_cons, List.dropWhile_cons, hf a]
    by_cases hp : isJsSpace a = true
    · rw [if_pos hp, if_pos hp, ih]
    · rw [if_neg hp, if_neg hp, List.map_cons]

theorem jsTrim_map (f : Char → Char) (hf : ∀ c, isJsSpace (f c) = isJsSpace c)
    (l : List Char) : jsTrim (l.map f) = (jsTrim l).map f := by
  unfold jsTrim
  rw [dropWhile_map_eq f hf, ← List.map_reverse, dropWhile_map_eq f hf, ← List.map_reverse]

theorem mem_of_mem_jsTrim {c : Char} {l : List Char} (h : c ∈ jsTrim l) : c ∈ l := by
  unfold jsTrim at h
  rw [List.mem_reverse] at h
  have h2 : c ∈ (l.dropWhile isJsSpace).reverse := (List.dropWhile_sublist _).subset h
  rw [List.mem_reverse] at h2
  exact (List.dropWhile_sublist _).subset h2

theorem jsTrim_eq_self_of_no_space (l : List Char) (h : ∀ c ∈ l, isJsSpace c = false) :
    jsTrim l = l := by
  unfold jsTrim
  have h1 : l.dropWhile isJsSpace = l := by
    apply dropWhile_eq_self_of_head
    intro c hc
    obtain ⟨ys, hys⟩ := List.head?_eq_some_iff.1 hc
    have hcm : c ∈ l := by
      rw [hys]
      exact List.mem_cons_self _ _
    rw [h c hcm]
    exact Bool.false_ne_true
  rw [h1]
  have h2 : l.reverse.dropWhile isJsSpace = l.reverse := by
    apply dropWhile_eq_self_of_head
    intro c hc
    obtain ⟨ys, hys⟩ := List.head?_eq_some_iff.1 hc
    have hcm : c ∈ l := by
      rw [← List.mem_reverse, hys]
      exact List.mem_cons_self _ _
    rw [h c hcm]
    exact Bool.false_ne_true
  rw [h2, List.reverse_reverse]

theorem normalizeSymbol_eq_addr (input : String) (hne : input ≠ "")
    (haddr : isAddrShaped ((jsTrim input.data).map jsToLowerChar) = true) :
    normalizeSymbol input = Except.ok (String.mk ((jsTrim input.data).map jsToLowerChar)) := by
  simp only [normalizeSymbol]
  rw [if_neg hne, if_pos haddr]

theorem normalizeSymbol_eq_ticker (input : String) (hne : input ≠ "")
    (haddr : ¬ isAddrShaped ((jsTrim input.data).map jsToLowerChar) = true)
    (htick : (isTickerShaped ((jsTrim input.data).map jsToLowerChar)
        && !jsTruthyGet (mapGet (String.mk ((jsTrim input.data).map jsToLowerChar)))) = true) :
    normalizeSymbol input
      = Except.ok (String.mk (((jsTrim input.data).map jsToLowerChar).map jsToUpperChar)) := by
  simp only [normalizeSymbol]
  rw [if_neg hne, if_neg haddr, if_pos htick]

theorem normalizeSymbol_eq_fallback_hit (input : String) (hne : input ≠ "")
    (haddr : ¬ isAddrShaped ((jsTrim input.data).map jsToLowerChar) = true)
    (htick : ¬ (isTickerShaped ((jsTrim input.data).map jsToLowerChar)
        && !jsTruthyGet (mapGet (String.mk ((jsTrim input.data).map jsToLowerChar)))) = true)
    {v : String}
    (hget : mapGet (String.mk ((jsTrim input.data).map jsToLowerChar)) = some (some v)) :
    normalizeSymbol input = Except.ok (String.mk (v.data.map jsToUpperChar)) := by
  simp only [normalizeSymbol]
  rw [if_neg hne, if_neg haddr, if_neg htick, hget]

theorem normalizeSymbol_eq_fallback_proto (input : String) (hne : input ≠ "")
    (haddr : ¬ isAddrShaped ((jsTrim input.data).map jsToLowerChar) = true)
    (htick : ¬ (isTickerShaped ((jsTrim input.data).map jsToLowerChar)
        && !jsTruthyGet (mapGet (String.mk ((jsTrim input.data).map jsToLowerChar)))) = true)
    (hget : mapGet (String.mk ((jsTrim input.data).map jsToLowerChar)) = some none) :
    normalizeSymbol input = Except.error () := by
  simp only [normalizeSymbol]
  rw [if_neg hne, if_neg haddr, if_neg htick, hget]

theorem normalizeSymbol_eq_fallback_miss (input : String) (hne : input ≠ "")
    (haddr : ¬ isAddrShaped ((jsTrim input.data).map jsToLowerChar) = true)
    (htick : ¬ (isTickerShaped ((jsTrim input.data).map jsToLowerChar)
        && !jsTruthyGet (mapGet (String.mk ((jsTrim input.data).map jsToLowerChar)))) = true)
    (hget : mapGet (String.mk ((jsTrim input.data).map jsToLowerChar)) = none) :
    normalizeSymbol input
      = Except.ok (String.mk (((jsTrim input.data).map jsToLowerChar).map jsToUpperChar)) := by
  simp only [normalizeSymbol]
  rw [if_neg hne, if_neg haddr, if_neg htick, hget]

theorem mapGet_eq_some_some {s v : String} (h : mapGet s = some (some v)) :
    MAP.lookup s = some v := by
  unfold mapGet at h
  cases hlk : MAP.lookup s with
  | some w =>
    rw [hlk] at h
    have h2 : (some (some w) : Option (Option String)) = some (some v) := h
    rw [Option.some.inj (Option.some.inj h2)]
  | none =>
    rw [hlk] at h
    by_cases hk : s ∈ objectProtoKeys
    · rw [if_pos hk] at h
      exact absurd (Option.some.inj h) (by simp)
    · rw [if_neg hk] at h
      exact absurd h (by simp)

theorem isAddrShaped_elim {l : List Char} (h : isAddrShaped l = true) :
    ∃ x rest, l = '0' :: x :: rest ∧ (x = 'x' ∨ x = 'X') ∧ rest.length = 40
      ∧ ∀ c ∈ rest, isHexDigitCI c = true := by
  cases l with
  | nil => exact absurd h (by decide)
  | cons c0 l1 =>
    cases l1 with
    | nil => simp [isAddrShaped] at h
    | cons x rest =>
      simp only [isAddrShaped, Bool.and_eq_true, Bool.or_eq_true, decide_eq_true_eq,
        beq_iff_eq, List.all_eq_true] at h
      obtain ⟨⟨⟨h0, hx⟩, hlen⟩, hall⟩ := h
      subst h0
      exact ⟨x, rest, rfl, hx, hlen, hall⟩

theorem isAddrShaped_intro (x : Char) (rest : List Char) (hx : x = 'x' ∨ x = 'X')
    (hlen : rest.length = 40) (hall : ∀ c ∈ rest, isHexDigitCI c = true) :
    isAddrShaped ('0' :: x :: rest) = true := by
  simp only [isAddrShaped, Bool.and_eq_true, Bool.or_eq_true, decide_eq_true_eq,
    beq_iff_eq, List.all_eq_true]
  exact ⟨⟨⟨trivial, hx⟩, hlen⟩, hall⟩

theorem isHexDigitCI_not_space {c : Char} (h : isHexDigitCI c = true) :
    isJsSpace c = false := by
  simp only [isHexDigitCI, Bool.or_eq_true, Bool.and_eq_true, decide_eq_true_eq] at h
  simp only [isJsSpace]
  rw [Bool.eq_false_iff]
  simp only [ne_eq, Bool.or_eq_true, decide_eq_true_eq]
  omega

theorem isAddrShaped_no_space {l : List Char} (h : isAddrShaped l = true) :
    ∀ c ∈ l, isJsSpace c = false := by
  obtain ⟨x, rest, rfl, hx, _, hall⟩ := isAddrShaped_elim h
  intro c hc
  rcases List.mem_cons.1 hc with rfl | hc
  · decide
  rcases List.mem_cons.1 hc with rfl | hc
  · rcases hx with rfl | rfl <;> decide
  · exact isHexDigitCI_not_space (hall c hc)

theorem isHexDigitCI_lower {c : Char} (h : isHexDigitCI c = true) :
    isHexDigitCI (jsToLowerChar c) = true := by
  simp only [isHexDigitCI, toNat_jsToLowerChar, Bool.or_eq_true, Bool.and_eq_true,
    decide_eq_true_eq] at h ⊢
  split <;> omega

theorem isAddrShaped_lower {l : List Char} (h : isAddrShaped l = true) :
    isAddrShaped (l.map jsToLowerChar) = true := by
  obtain ⟨x, rest, rfl, hx, hlen, hall⟩ := isAddrShaped_elim h
  rw [List.map_cons, List.map_cons, show jsToLowerChar '0' = '0' from by decide]
  apply isAddrShaped_intro
  · rcases hx with rfl | rfl
    · left; decide
    · left; decide
  · rw [List.length_map]; exact hlen
  · intro c hc
    obtain ⟨d, hd, rfl⟩ := List.mem_map.1 hc
    exact isHexDigitCI_lower (hall d hd)

theorem jsTrim_sublist (l : List Char) : List.Sublist (jsTrim l) l := by
  unfold jsTrim
  have h1 : List.Sublist (l.dropWhile isJsSpace) l := (List.dropWhile_suffix _).sublist
  have h2 : List.Sublist ((l.dropWhile isJsSpace).reverse.dropWhile isJsSpace)
      (l.dropWhile isJsSpace).reverse := (List.dropWhile_suffix _).sublist
  have h3 := h2.reverse
  rw [List.reverse_reverse] at h3
  exact h3.trans h1

/-- C9 (amended): for every nonempty input whose trimmed, lowercased form
matches the 40-hex-digit `0x` address pattern, `normalizeSymbol` returns that
trimmed lowercased form — the address is preserved up to whitespace-trimming
and case, not verbatim; the output equals the input exactly when the input is
already trimmed and fully lowercase. -/
theorem normalizeSymbol_address (input : String) (hne : input ≠ "")
    (haddr : isAddrShaped ((jsTrim input.data).map jsToLowerChar) = true) :
    normalizeSymbol input = Except.ok (String.mk ((jsTrim input.data).map jsToLowerChar))
    ∧ (normalizeSymbol input = Except.ok input ↔
        (jsTrim input.data = input.data ∧ input.data.map jsToLowerChar = input.data)) := by
  have hmain := normalizeSymbol_eq_addr input hne haddr
  refine ⟨hmain, ?_, ?_⟩
  · intro h2
    rw [hmain] at h2
    have h3 : (jsTrim input.data).map jsToLowerChar = input.data := by
      have h4 := congrArg String.data (Except.ok.inj h2)
      simpa using h4
    have hlen : (jsTrim input.data).length = input.data.length := by
      have h5 := congrArg List.length h3
      simpa using h5
    have htr : jsTrim input.data = input.data := (jsTrim_sublist input.data).eq_of_length hlen
    rw [htr] at h3
    exact ⟨htr, h3⟩
  · rintro ⟨htr, hlo⟩
    rw [hmain, htr, hlo]

/-- C9 counterexample: an uppercase-hex address is not returned verbatim —
`normalizeSymbol` returns its lowercased form. -/
theorem normalizeSymbol_address_not_verbatim :
    normalizeSymbol "0xAAAAAAAAAAAAAAAAAAAAAAAAAAAAAAAAAAAAAAAA"
      = Except.ok "0xaaaaaaaaaaaaaaaaaaaaaaaaaaaaaaaaaaaaaaaa"
    ∧ normalizeSymbol "0xAAAAAAAAAAAAAAAAAAAAAAAAAAAAAAAAAAAAAAAA"
      ≠ Except.ok "0xAAAAAAAAAAAAAAAAAAAAAAAAAAAAAAAAAAAAAAAA" := by decide

/-- Witness for `normalizeSymbol_address` on a whitespace-padded mixed-case
address (first conjunct of the theorem) and a trimmed lowercase address (the
backward direction of the iff). -/
theorem normalizeSymbol_address_witness :
    (("  0xAbCdEf0123456789aBcDeF0123456789AbCdEf01" : String) ≠ ""
      ∧ isAddrShaped ((jsTrim (String.data
          "  0xAbCdEf0123456789aBcDeF0123456789AbCdEf01")).map jsToLowerChar) = true
      ∧ normalizeSymbol "  0xAbCdEf0123456789aBcDeF0123456789AbCdEf01"
          = Except.ok (String.mk ((jsTrim (String.data
              "  0xAbCdEf0123456789aBcDeF0123456789AbCdEf01")).map jsToLowerChar)))
    ∧ (jsTrim (String.data "0xabcdef0123456789abcdef0123456789abcdef01")
          = String.data "0xabcdef0123456789abcdef0123456789abcdef01"
      ∧ (String.data "0xabcdef0123456789abcdef0123456789abcdef01").map jsToLowerChar
          = String.data "0xabcdef0123456789abcdef0123456789abcdef01"
      ∧ normalizeSymbol "0xabcdef0123456789abcdef0123456789abcdef01"
          = Except.ok "0xabcdef0123456789abcdef0123456789abcdef01") :=
  ⟨⟨by decide, by decide, (normalizeSymbol_address _ (by decide) (by decide)).1⟩,
   ⟨by decide, by decide,
     ((normalizeSymbol_address "0xabcdef0123456789abcdef0123456789abcdef01"
        (by decide) (by decide)).2).mpr ⟨by decide, by decide⟩⟩⟩

theorem mk_ne_empty {X : List Char} (h : X ≠ []) : String.mk X ≠ "" := by
  intro he
  have h2 : X = ("" : String).data := congrArg String.data he
  rw [show ("" : String).data = [] from rfl] at h2
  exact h h2

theorem second_call_data {s1 : List Char}
    (hascii : ∀ c ∈ s1, c.toNat < 128)
    (hlow : s1.map jsToLowerChar = s1) (htrim : jsTrim s1 = s1) :
    (jsTrim (String.mk (s1.map jsToUpperChar)).data).map jsToLowerChar = s1 := by
  have hdata : (String.mk (s1.map jsToUpperChar)).data = s1.map jsToUpperChar := rfl
  rw [hdata, jsTrim_map jsToUpperChar isJsSpace_jsToUpperChar, htrim]
  conv_lhs => rw [← hlow]
  rw [List.map_map, List.map_map]
  rw [show s1.map ((jsToLowerChar ∘ jsToUpperChar) ∘ jsToLowerChar) = s1.map jsToLowerChar from
    List.map_congr_left (fun c hc => lower_upper_lower c (hascii c hc))]
  exact hlow

theorem normalizeSymbol_fix_addr {s1 : List Char} (haddr : isAddrShaped s1 = true)
    (hlow : s1.map jsToLowerChar = s1) (htrim : jsTrim s1 = s1) :
    normalizeSymbol (String.mk s1) = Except.ok (String.mk s1) := by
  have hne : String.mk s1 ≠ "" := by
    apply mk_ne_empty
    obtain ⟨x, rest, rfl, _, _, _⟩ := isAddrShaped_elim haddr
    exact List.cons_ne_nil _ _
  have haddr2 : isAddrShaped ((jsTrim (String.mk s1).data).map jsToLowerChar) = true := by
    show isAddrShaped ((jsTrim s1).map jsToLowerChar) = true
    rw [htrim, hlow]
    exact haddr
  have h := normalizeSymbol_eq_addr (String.mk s1) hne haddr2
  have hdata : (String.mk s1).data = s1 := rfl
  rw [hdata, htrim, hlow] at h
  exact h

theorem normalizeSymbol_fix_ticker {s1 : List Char}
    (hascii : ∀ c ∈ s1, c.toNat < 128)
    (hlow : s1.map jsToLowerChar = s1) (htrim : jsTrim s1 = s1)
    (haddr : ¬ isAddrShaped s1 = true)
    (htick : (isTickerShaped s1 && !jsTruthyGet (mapGet (String.mk s1))) = true) :
    normalizeSymbol (String.mk (s1.map jsToUpperChar))
      = Except.ok (String.mk (s1.map jsToUpperChar)) := by
  have hs2 := second_call_data hascii hlow htrim
  have hne : String.mk (s1.map jsToUpperChar) ≠ "" := by
    apply mk_ne_empty
    intro hmap
    rw [List.map_eq_nil_iff.1 hmap] at htick
    exact absurd htick (by decide)
  have haddr2 : ¬ isAddrShaped
      ((jsTrim (String.mk (s1.map jsToUpperChar)).data).map jsToLowerChar) = true := by
    rw [hs2]
    exact haddr
  have htick2 : (isTickerShaped ((jsTrim (String.mk (s1.map jsToUpperChar)).data).map jsToLowerChar)
      && !jsTruthyGet (mapGet (String.mk
        ((jsTrim (String.mk (s1.map jsToUpperChar)).data).map jsToLowerChar)))) = true := by
    rw [hs2]
    exact htick
  have h := normalizeSymbol_eq_ticker _ hne haddr2 htick2
  rw [hs2] at h
  exact h

theorem normalizeSymbol_fix_fallback {s1 : List Char}
    (hascii : ∀ c ∈ s1, c.toNat < 128)
    (hlow : s1.map jsToLowerChar = s1) (htrim : jsTrim s1 = s1)
    (haddr : ¬ isAddrShaped s1 = true)
    (htick : ¬ (isTickerShaped s1 && !jsTruthyGet (mapGet (String.mk s1))) = true)
    (hget : mapGet (String.mk s1) = none) :
    normalizeSymbol (String.mk (s1.map jsToUpperChar))
      = Except.ok (String.mk (s1.map jsToUpperChar)) := by
  by_cases hnil : s1 = []
  · subst hnil
    decide
  · have hs2 := second_call_data hascii hlow htrim
    have hne : String.mk (s1.map jsToUpperChar) ≠ "" :=
      mk_ne_empty (fun hmap => hnil (List.map_eq_nil_iff.1 hmap))
    have haddr2 : ¬ isAddrShaped
        ((jsTrim (String.mk (s1.map jsToUpperChar)).data).map jsToLowerChar) = true := by
      rw [hs2]
      exact haddr
    have htick2 : ¬ (isTickerShaped
          ((jsTrim (String.mk (s1.map jsToUpperChar)).data).map jsToLowerChar)
        && !jsTruthyGet (mapGet (String.mk
          ((jsTrim (String.mk (s1.map jsToUpperChar)).data).map jsToLowerChar))))
          = true := by
      rw [hs2]
      exact htick
    have hget2 : mapGet (String.mk
        ((jsTrim (String.mk (s1.map jsToUpperChar)).data).map jsToLowerChar)) = none := by
      rw [hs2]
      exact hget
    have h := normalizeSymbol_eq_fallback_miss _ hne haddr2 htick2 hget2
    rw [hs2] at h
    exact h

theorem lookup_mem_pairs {β : Type} :
    ∀ (l : List (String × β)) (k : String) (v : β),
      l.lookup k = some v → ∃ k2, (k2, v) ∈ l := by
  intro l
  induction l with
  | nil => intro k v h; simp [List.lookup] at h
  | cons p rest ih =>
    intro k v h
    obtain ⟨k1, v1⟩ := p
    cases hbeq : (k == k1)
    · rw [List.lookup_cons, hbeq] at h
      have h2 : rest.lookup k = some v := h
      obtain ⟨k2, hk2⟩ := ih k v h2
      exact ⟨k2, List.mem_cons_of_mem _ hk2⟩
    · rw [List.lookup_cons, hbeq] at h
      have h2 : some v1 = some v := h
      cases h2
      exact ⟨k1, List.mem_cons_self _ _⟩

theorem normalizeSymbol_MAP_values :
    ∀ pr ∈ MAP, normalizeSymbol (String.mk (pr.2.data.map jsToUpperChar))
      = Except.ok (String.mk (pr.2.data.map jsToUpperChar)) := by decide

/-- C10 counterexample: `normalizeSymbol` is not idempotent.  The input
`"ſolana"` (leading U+017F LATIN SMALL LETTER LONG S, which uppercases to
ASCII `S` but has no lowercase mapping and matches neither the ticker regex
nor any table key) normalises to `"SOLANA"`, but normalising that output hits
the `solana → SOL` table entry and returns `"SOL"`.  Moreover the ASCII
inputs `"constructor"` and `"__proto__"` do not even return: the property
read `MAP[s]` finds the inherited `Object.prototype` member, which is
non-nullish but has no `toUpperCase`, so the call throws. -/
theorem normalizeSymbol_unicode_not_idem :
    normalizeSymbol "ſolana" = Except.ok "SOLANA"
    ∧ normalizeSymbol "SOLANA" = Except.ok "SOL"
    ∧ normalizeSymbol "SOLANA" ≠ normalizeSymbol "ſolana"
    ∧ normalizeSymbol "constructor" = Except.error ()
    ∧ normalizeSymbol "__proto__" = Except.error () := by decide

/-- C10 (amended): `normalizeSymbol` is idempotent on every ASCII input on
which it returns a value: if every code point of `input` is below 128 and
`normalizeSymbol input` returns `out` (rather than throwing), then
`normalizeSymbol out` returns `out` again.  The counterexample above shows
both ways this can otherwise fail: a non-ASCII input whose uppercasing folds
into a table key, and an ASCII input on which the call throws. -/
theorem normalizeSymbol_ascii_idem (input out : String)
    (hascii : ∀ c ∈ input.data, c.toNat < 128)
    (hok : normalizeSymbol input = Except.ok out) :
    normalizeSymbol out = Except.ok out := by
  by_cases hempty : input = ""
  · subst hempty
    have h0 : normalizeSymbol "" = Except.ok "" := by decide
    rw [h0] at hok
    have h1 := Except.ok.inj hok
    rw [← h1]
    exact h0
  · have hT_ascii : ∀ c ∈ jsTrim input.data, c.toNat < 128 :=
      fun c hc => hascii c (mem_of_mem_jsTrim hc)
    have hs1_ascii : ∀ c ∈ (jsTrim input.data).map jsToLowerChar, c.toNat < 128 := by
      intro c hc
      obtain ⟨d, hd, rfl⟩ := List.mem_map.1 hc
      exact toNat_jsToLowerChar_lt_128 (hT_ascii d hd)
    have hlow : ((jsTrim input.data).map jsToLowerChar).map jsToLowerChar
        = (jsTrim input.data).map jsToLowerChar := by
      rw [List.map_map]
      exact List.map_congr_left (fun c _ => jsToLowerChar_idem c)
    have htrim : jsTrim ((jsTrim input.data).map jsToLowerChar)
        = (jsTrim input.data).map jsToLowerChar := by
      rw [jsTrim_map jsToLowerChar isJsSpace_jsToLowerChar, jsTrim_idem]
    by_cases haddr : isAddrShaped ((jsTrim input.data).map jsToLowerChar) = true
    · rw [normalizeSymbol_eq_addr input hempty haddr] at hok
      have h1 := Except.ok.inj hok
      rw [← h1]
      exact normalizeSymbol_fix_addr haddr hlow htrim
    · by_cases htick : (isTickerShaped ((jsTrim input.data).map jsToLowerChar)
          && !jsTruthyGet (mapGet (String.mk ((jsTrim input.data).map jsToLowerChar)))) = true
      · rw [normalizeSymbol_eq_ticker input hempty haddr htick] at hok
        have h1 := Except.ok.inj hok
        rw [← h1]
        exact normalizeSymbol_fix_ticker hs1_ascii hlow htrim haddr htick
      · cases hget : mapGet (String.mk ((jsTrim input.data).map jsToLowerChar)) with
        | none =>
          rw [normalizeSymbol_eq_fallback_miss input hempty haddr htick hget] at hok
          have h1 := Except.ok.inj hok
          rw [← h1]
          exact normalizeSymbol_fix_fallback hs1_ascii hlow htrim haddr htick hget
        | some w =>
          cases w with
          | none =>
            rw [normalizeSymbol_eq_fallback_proto input hempty haddr htick hget] at hok
            exact absurd hok (by simp)
          | some v =>
            rw [normalizeSymbol_eq_fallback_hit input hempty haddr htick hget] at hok
            have h1 := Except.ok.inj hok
            rw [← h1]
            obtain ⟨k2, hmem⟩ := lookup_mem_pairs MAP _ v (mapGet_eq_some_some hget)
            exact normalizeSymbol_MAP_values (k2, v) hmem

/-- Witness for `normalizeSymbol_ascii_idem` on the ASCII input
`"dogecoin"`, which normalises to `"DOGE"`. -/
theorem normalizeSymbol_ascii_idem_witness :
    (∀ c ∈ ("dogecoin" : String).data, c.toNat < 128)
    ∧ normalizeSymbol "dogecoin" = Except.ok "DOGE"
    ∧ normalizeSymbol "DOGE" = Except.ok "DOGE" :=
  ⟨by decide, by decide, normalizeSymbol_ascii_idem "dogecoin" "DOGE" (by decide) (by decide)⟩

end NormalizeSymbolLemmas

end TraDex
